import Mathlib

/-!
Verification of the `dico` document/schema library (src/dico/__init__.py,
src/dico/mutable.py) against its natural-language specification.

The development has two layers:

* `Dico` — a functional embedding of the value/validation/pipeline layer
  (field descriptors, `_validate` methods, `_prepare` methods, the generated
  `update_from_N` / `from_N` / `to_N` closures of `Document.add_source` and
  `Document.add_view`).  Python objects are modelled as a first-order `Value`
  tree; aliasing plays no role in these claims.
* `DicoB` — a heap/state embedding of the change-propagation layer
  (`BaseField._changed`, owner backlinks `_parents`, `NotifyList` mutation,
  the `_modified_fields` set and the `_is_valid` cache), where object
  identity matters.

Modelling conventions, used throughout and noted at each definition:
 - Python `None` is `Value.vnone`; an *absent* attribute is a missing key in
   the association-list store (the two are distinguishable via `__getattr__`,
   exactly as in Python).
 - Python booleans are integers (`isinstance(True, int)` holds), so the
   integer/float validators accept `vbool`.
 - A compiled regular expression is abstracted as its match predicate
   `String → Bool` (only `compiled_regex.match(value) is None` is ever used);
   a `choices` sequence is abstracted as its membership predicate (only
   `value not in field.choices` is ever used); a callable default is
   abstracted as the value it returns.
 - `socket.inet_pton` is an external collaborator; it is modelled by simple
   parsers below.  The only behaviour of it the claims depend on is that it
   raises `TypeError` when handed a non-string argument.
 - Class identity of documents is modelled by a class-name tag, under the
   global assumption that distinct document classes have distinct names and
   a fixed field table.
-/

namespace Dico

/-- Python exceptions that the modelled code can raise. -/
inductive PyErr where
  | validationError
  | typeError
  | attributeError
  | keyError
  deriving DecidableEq, Repr

/-- A Python value as stored in a document or passed through a pipeline.
`vdoc cls store` is a `Document` instance of class `cls` with attribute
store `store`; `vdict` is a raw `dict` (or `NotifyDict`); `vlist` is a raw
`list` (or `NotifyList`): the functional layer identifies a notify container
with its contents, since backlinks are dealt with in the `DicoB` layer.
`vfloat` and `vdatetime` carry opaque payloads: no claim depends on float
arithmetic or calendar structure, only on the isinstance checks. -/
inductive Value where
  | vnone
  | vint (n : Int)
  | vbool (b : Bool)
  | vfloat (payload : Int)
  | vdatetime (payload : Int)
  | vstr (s : String)
  | vlist (elems : List Value)
  | vdict (pairs : List (Value × Value))
  | vdoc (cls : String) (store : List (String × Value))

/-- The `value is None` test of the source. -/
def Value.isNone : Value → Bool
  | .vnone => true
  | _ => false

theorem Value.isNone_iff (v : Value) : v.isNone = true ↔ v = .vnone := by
  cases v <;> simp [Value.isNone]

theorem Value.isNone_eq_false (v : Value) (hv0 : v ≠ .vnone) : v.isNone = false := by
  cases hn : v.isNone
  · rfl
  · exact absurd ((Value.isNone_iff v).mp hn) hv0

/-- The keyword arguments common to every `BaseField.__init__`
(src/dico/__init__.py lines 36-41). -/
structure FieldAttrs where
  default : Option Value
  required : Bool
  choices : Option (Value → Bool)

/-- A field descriptor: one constructor per concrete field class of the
source.  `URLField` and `EmailField` are `StringField`s with a fixed
compiled regex, hence instances of `strF`.  For `embF`, the embedded
document class is its name tag plus its field table. -/
inductive FieldDesc where
  | intF (a : FieldAttrs)
  | boolF (a : FieldAttrs)
  | floatF (a : FieldAttrs)
  | datetimeF (a : FieldAttrs)
  | strF (compiled_regex : Option (String → Bool)) (max_length min_length : Option Int) (a : FieldAttrs)
  | ipF (a : FieldAttrs)
  | listF (subfield : FieldDesc) (max_length min_length : Option Int) (a : FieldAttrs)
  | mapF (keysubfield valuesubfield : FieldDesc) (a : FieldAttrs)
  | embF (cls : String) (schema : List (String × FieldDesc)) (a : FieldAttrs)

/-- A compiled field table `cls._fields`: field name to descriptor.
Python's `_fields` is a dict; the model fixes an iteration order. -/
abbrev Schema := List (String × FieldDesc)

/-- An instance's attribute store (the object `__dict__`, restricted to
field values). -/
abbrev Store := List (String × Value)

/-- The `kwargs` attributes of a field descriptor. -/
def FieldDesc.attrs : FieldDesc → FieldAttrs
  | .intF a => a
  | .boolF a => a
  | .floatF a => a
  | .datetimeF a => a
  | .strF _ _ _ a => a
  | .ipF a => a
  | .listF _ _ _ a => a
  | .mapF _ _ a => a
  | .embF _ _ a => a

/-- `isinstance(field, EmbeddedDocumentField)`, as tested by `add_view` and
`add_source` when deciding how to treat a field. -/
def FieldDesc.isEmb : FieldDesc → Bool
  | .embF _ _ _ => true
  | _ => false

/-- `hasattr(field, "_prepare")`: only the three composite field classes
define `_prepare`. -/
def FieldDesc.hasPrepare : FieldDesc → Bool
  | .listF _ _ _ _ => true
  | .mapF _ _ _ => true
  | .embF _ _ _ => true
  | _ => false

/-- First-match association-list lookup (Python dict get by key). -/
def lookupStr {α : Type} : List (String × α) → String → Option α
  | [], _ => none
  | (k, v) :: rest, key => if k = key then some v else lookupStr rest key

/-- `object.__setattr__`: bind `key` to `v`, replacing an existing binding. -/
def setStore : Store → String → Value → Store
  | [], key, v => [(key, v)]
  | (k, w) :: rest, key, v =>
      if k = key then (k, v) :: rest else (k, w) :: setStore rest key v

/-- Set-flavoured insertion into a list of names (`set.add`). -/
def insertStr (name : String) (l : List String) : List String :=
  if name ∈ l then l else name :: l

/- Sizes used as termination measures for the mutually recursive pipeline
functions (recursion always descends into a structurally smaller part of a
field descriptor or schema). -/

mutual

def fdSize : FieldDesc → Nat
  | .intF _ => 1
  | .boolF _ => 1
  | .floatF _ => 1
  | .datetimeF _ => 1
  | .strF _ _ _ _ => 1
  | .ipF _ => 1
  | .listF sub _ _ _ => 1 + fdSize sub
  | .mapF k v _ => 1 + fdSize k + fdSize v
  | .embF _ γ _ => 1 + schemaSize γ

def schemaSize : Schema → Nat
  | [] => 0
  | (_, f) :: rest => 1 + fdSize f + schemaSize rest

end

/-- The resolved field list of a pipeline, as built by `add_source`
(src/dico/__init__.py lines 389-396): pairs of a key and
`cls._fields.get(key)`, which is `none` for a key outside the field
table (possible with `keep_fields`). -/
abbrev PipeFields := List (String × Option FieldDesc)

def optFieldsSize : PipeFields → Nat
  | [] => 0
  | (_, some f) :: rest => 1 + fdSize f + optFieldsSize rest
  | (_, none) :: rest => 1 + optFieldsSize rest

/-- The default pipeline field list covers the whole field table
(`fields = cls._fields.items()`). -/
def ofSchemaFields (γ : Schema) : PipeFields :=
  γ.map (fun p => (p.1, some p.2))

theorem optFieldsSize_ofSchemaFields (γ : Schema) :
    optFieldsSize (ofSchemaFields γ) = schemaSize γ := by
  induction γ with
  | nil => rfl
  | cons p rest ih =>
    cases p with
    | mk n f => simp [ofSchemaFields, optFieldsSize, schemaSize] at ih ⊢; omega

theorem fdSize_pos (f : FieldDesc) : 1 ≤ fdSize f := by
  cases f <;> (simp [fdSize]; try omega)

/-- `length is not None and len(value) > length` (the max-length pattern). -/
def overMax (len : Int) : Option Int → Bool
  | some m => decide (len > m)
  | none => false

/-- `length is not None and len(value) < length` (the min-length pattern). -/
def underMin (len : Int) : Option Int → Bool
  | some m => decide (len < m)
  | none => false

/- Simple (non-composite) validators, from src/dico/__init__.py. -/

/-- `BooleanField._validate` (lines 181-185). -/
def booleanValidate : Value → Bool
  | .vbool _ => true
  | _ => false

/-- `IntegerField._validate` (lines 237-241); Python `bool` is a subclass
of `int`, so `vbool` passes the isinstance check. -/
def integerValidate : Value → Bool
  | .vint _ => true
  | .vbool _ => true
  | _ => false

/-- `FloatField._validate` (lines 244-248): accepts `float` and `int`. -/
def floatValidate : Value → Bool
  | .vfloat _ => true
  | .vint _ => true
  | .vbool _ => true
  | _ => false

/-- `DateTimeField._validate` (lines 251-255). -/
def datetimeValidate : Value → Bool
  | .vdatetime _ => true
  | _ => false

/-- `StringField._validate` (lines 195-210), with the compiled regex
abstracted as its match predicate.  Note the order: the length checks run
before the empty-string escape hatch of the pattern check. -/
def stringValidate (compiled_regex : Option (String → Bool))
    (max_length min_length : Option Int) (is_required : Bool) (v : Value) : Bool :=
  match v with
  | .vstr s =>
      if overMax (s.length : Int) max_length then false
      else if underMin (s.length : Int) min_length then false
      else
        match compiled_regex with
        | some r => if r s then true else (s = "" && !is_required)
        | none => true
  | _ => false

/-- Modelled: the success predicate of `socket.inet_pton(AF_INET, s)`
(dotted-quad parse).  The socket library is an external collaborator; the
exact set of accepted strings is irrelevant to every claim. -/
def inetPton4 (s : String) : Bool :=
  let parts := s.splitOn "."
  parts.length = 4 && parts.all (fun p =>
    0 < p.length && p.length ≤ 3 && p.all Char.isDigit && p.toNat?.getD 256 ≤ 255)

/-- Modelled: the success predicate of `socket.inet_pton(AF_INET6, s)`
(simplified).  As above, only its existence matters to the claims. -/
def inetPton6 (s : String) : Bool :=
  s.contains ':' &&
    s.toList.all (fun c => c.isDigit || ('a' ≤ c && c ≤ 'f') || ('A' ≤ c && c ≤ 'F') || c = ':')

/-- `IPAddressField._validate` (lines 216-224).  The source calls
`socket.inet_pton` directly on `value` without an isinstance guard and only
catches `socket.error`; on a non-string argument `inet_pton` raises
`TypeError`, which escapes. -/
def ipValidate : Value → Except PyErr Bool
  | .vstr s => .ok (inetPton4 s || inetPton6 s)
  | _ => .error .typeError

/-- An argument passed to a composite field constructor, as Python sees it:
a `BaseField` instance, a `Document` subclass (an instance of
`DocumentMetaClass`), or anything else (e.g. the builtin `int`). -/
inductive CtorArg where
  | aBaseField (f : FieldDesc)
  | aDocClass (cls : String) (schema : Schema)
  | aPlain

/-- `EmbeddedDocumentField.__init__` (lines 56-62): raises
`AttributeError` unless `field_type` is a `Document` subclass. -/
def mkEmbeddedDocumentField (field_type : CtorArg) (a : FieldAttrs) :
    Except PyErr FieldDesc :=
  match field_type with
  | .aDocClass cls γ => .ok (.embF cls γ a)
  | _ => .error .attributeError

/-- `ListField.__init__` (lines 134-144): injects the default `[]` when no
default is given, and raises `AttributeError` unless `subfield` is a
`BaseField` instance. -/
def mkListField (subfield : CtorArg) (max_length min_length : Option Int)
    (a : FieldAttrs) : Except PyErr FieldDesc :=
  let a1 : FieldAttrs :=
    match a.default with
    | none => { a with default := some (.vlist []) }
    | some _ => a
  match subfield with
  | .aBaseField f => .ok (.listF f max_length min_length a1)
  | _ => .error .attributeError

/-- `MappingField.__init__` (lines 86-97): injects the default `{}` when no
default is given, and raises `AttributeError` unless both subfields are
`BaseField` instances. -/
def mkMappingField (keysubfield valuesubfield : CtorArg) (a : FieldAttrs) :
    Except PyErr FieldDesc :=
  let a1 : FieldAttrs :=
    match a.default with
    | none => { a with default := some (.vdict []) }
    | some _ => a
  match keysubfield, valuesubfield with
  | .aBaseField k, .aBaseField v => .ok (.mapF k v a1)
  | _, _ => .error .attributeError

/-- The mutable per-instance state of a top-level document in the functional
layer: the attribute store, the `_modified_fields` set and the `_is_valid`
cache (src/dico/__init__.py lines 289-293).  The functional layer models an
instance with no owners, so `BaseField._changed` has no parents to notify;
owner backlinks are the subject of the `DicoB` layer. -/
structure DocState where
  store : Store
  modified : List String
  isValidCache : Bool

/-- A freshly constructed instance before `update_from_dict` runs
(lines 290-293). -/
def initDocState : DocState :=
  { store := [], modified := [], isValidCache := false }

/-- `BaseField._changed(instance)` (lines 46-52) for an instance with no
parents: add the field name to `_modified_fields` and clear `_is_valid`. -/
def changedF (name : String) (d : DocState) : DocState :=
  { d with modified := insertStr name d.modified, isValidCache := false }

/-- Keyword-argument expansion `f(**value)`: every key of the raw mapping
must be a string, otherwise Python raises `TypeError`. -/
def asKwargs : List (Value × Value) → Except PyErr (List (String × Value))
  | [] => .ok []
  | (.vstr k, v) :: rest => do
      let tail ← asKwargs rest
      .ok ((k, v) :: tail)
  | (_, _) :: _ => .error .typeError

mutual

/-- Dispatch of `field._validate(value)` over the concrete field classes.
For `listF` this is `ListField._validate` (lines 150-162), for `mapF`
`MappingField._validate` (lines 104-112), for `embF`
`EmbeddedDocumentField._validate` (lines 78-82): an isinstance check on the
class tag, then the embedded document's own strict `validate()`.  Only
`IPAddressField` can raise. -/
def fieldTypeValidate : FieldDesc → Value → Except PyErr Bool
  | .intF _, v => .ok (integerValidate v)
  | .boolF _, v => .ok (booleanValidate v)
  | .floatF _, v => .ok (floatValidate v)
  | .datetimeF _, v => .ok (datetimeValidate v)
  | .strF r mx mn a, v => .ok (stringValidate r mx mn a.required v)
  | .ipF _, v => ipValidate v
  | .listF sub mx mn _, v =>
      match v with
      | .vlist xs =>
          if overMax (xs.length : Int) mx then .ok false
          else if underMin (xs.length : Int) mn then .ok false
          else listAllValidate sub xs
      | _ => .ok false
  | .mapF ks vs _, v =>
      match v with
      | .vdict prs => mapAllValidate ks vs prs
      | _ => .ok false
  | .embF cls γ _, v =>
      match v with
      | .vdoc c st => if c = cls then validateFieldsGo γ st true else .ok false
      | _ => .ok false
termination_by f _ => (fdSize f, 0)
decreasing_by all_goals (simp [fdSize, schemaSize]; try omega)

/-- `for entry in value: if not self.subfield._validate(entry): return False`
(ListField._validate, lines 159-161). -/
def listAllValidate : FieldDesc → List Value → Except PyErr Bool
  | _, [] => .ok true
  | sub, x :: xs => do
      let b ← fieldTypeValidate sub x
      if b then listAllValidate sub xs else .ok false
termination_by sub xs => (fdSize sub, xs.length + 1)
decreasing_by all_goals (simp [fdSize, schemaSize]; try omega)

/-- The key/value walk of `MappingField._validate` (lines 107-111). -/
def mapAllValidate : FieldDesc → FieldDesc → List (Value × Value) → Except PyErr Bool
  | _, _, [] => .ok true
  | ks, vs, (k, v) :: rest => do
      let bk ← fieldTypeValidate ks k
      if bk then do
        let bv ← fieldTypeValidate vs v
        if bv then mapAllValidate ks vs rest else .ok false
      else .ok false
termination_by ks vs prs => (fdSize ks + fdSize vs, prs.length + 1)
decreasing_by all_goals (simp [fdSize, schemaSize]; try omega)

/-- The field walk of `Document._validate_fields` (lines 318-349) over the
field table, together with the body of `Document.validate` without its
cache (lines 351-365; the `_is_valid` read/write is put back on top in
`validateDocument` and studied in the `DicoB` layer).  Resolution of a
field value is `getattr(self, field_name, None)` and hence materializes
defaults through `__getattr__`. -/
def validateFieldsGo : Schema → Store → Bool → Except PyErr Bool
  | [], _, _ => .ok true
  | (name, f) :: rest, st, stopOnRequired => do
      let v ← resolveValue f st name
      if v.isNone then
        if stopOnRequired && f.attrs.required then .ok false
        else validateFieldsGo rest st stopOnRequired
      else do
        let okChoices :=
          match f.attrs.choices with
          | some mem => mem v
          | none => true
        if okChoices then do
          let b ← fieldTypeValidate f v
          if b then validateFieldsGo rest st stopOnRequired else .ok false
        else .ok false
termination_by pending _ _ => (schemaSize pending, 0)
decreasing_by all_goals (simp [fdSize, schemaSize]; try omega)

/-- `getattr(self, field_name, None)`: the stored value if the attribute is
materialized, otherwise `Document.__getattr__` (lines 297-308) resolves the
field default (invoking a callable default, modelled as a constant) and
passes it through `_prepare` when the field has one. -/
def resolveValue (f : FieldDesc) (st : Store) (name : String) : Except PyErr Value :=
  match lookupStr st name with
  | some v => .ok v
  | none =>
      match f.attrs.default with
      | none => .ok .vnone
      | some .vnone => .ok .vnone
      | some d => if f.hasPrepare then prepareValue f d else .ok d

/-- `field._prepare(instance, value, source)` for the three composite field
classes: `EmbeddedDocumentField._prepare` (lines 64-76), which turns a raw
`dict` into an instance of the embedded class via its `from_N` pipeline;
`ListField._prepare` (lines 164-178); `MappingField._prepare`
(lines 114-130).  Parent-backlink registration is a state effect with no
bearing on the produced value; it is modelled in the `DicoB` layer. -/
def prepareValue : FieldDesc → Value → Except PyErr Value
  | .embF cls γ _, v =>
      match v with
      | .vdict prs => do
          let kw ← asKwargs prs
          let d ← updateGo (ofSchemaFields γ) false initDocState kw
          .ok (.vdoc cls d.store)
      | v => .ok v
  | .listF sub _ _ _, v =>
      match v with
      | .vlist xs =>
          if sub.hasPrepare then do
            let ys ← prepareListGo sub xs
            .ok (.vlist ys)
          else .ok (.vlist xs)
      | v => .ok v
  | .mapF ks vs _, v =>
      match v with
      | .vdict prs => do
          let qs ← prepareMapGo ks vs prs
          .ok (.vdict qs)
      | v => .ok v
  | _, v => .ok v
termination_by f _ => (fdSize f, 1)
decreasing_by all_goals
  (simp [fdSize, schemaSize]
   try omega
   try (left; rw [optFieldsSize_ofSchemaFields]; omega))

/-- Element preparation inside `ListField._prepare` (lines 169-173). -/
def prepareListGo : FieldDesc → List Value → Except PyErr (List Value)
  | _, [] => .ok []
  | sub, x :: xs => do
      let y ← prepareValue sub x
      let ys ← prepareListGo sub xs
      .ok (y :: ys)
termination_by sub xs => (fdSize sub, xs.length + 2)
decreasing_by all_goals (simp [fdSize, schemaSize]; try omega)

/-- Pair preparation inside `MappingField._prepare` (lines 120-127): each
side goes through its subfield's `_prepare` when that subfield has one. -/
def prepareMapGo : FieldDesc → FieldDesc → List (Value × Value) → Except PyErr (List (Value × Value))
  | _, _, [] => .ok []
  | ks, vs, (k, v) :: rest => do
      let k1 ← if ks.hasPrepare then prepareValue ks k else .ok k
      let v1 ← if vs.hasPrepare then prepareValue vs v else .ok v
      let tail ← prepareMapGo ks vs rest
      .ok ((k1, v1) :: tail)
termination_by ks vs prs => (fdSize ks + fdSize vs, prs.length + 2)
decreasing_by all_goals (simp [fdSize, schemaSize]; try omega)

/-- The generated `update` closure of `Document.add_source`
(lines 420-439), minus the optional filter step (put back on top in
`updateFrom`): for each resolved field whose key maps to a value that
`is not None`, prepare the value when the field is a composite one, store
it with `object.__setattr__`, and call `field._changed` only when `changed`
is true.  A key resolved to no field (possible with `keep_fields`) is
stored raw without dirty-marking. -/
def updateGo : PipeFields → Bool → DocState → List (String × Value) → Except PyErr DocState
  | [], _, d, _ => .ok d
  | (key, some f) :: rest, changed, d, data =>
      match lookupStr data key with
      | none => updateGo rest changed d data
      | some v =>
          if v.isNone then updateGo rest changed d data
          else do
            let v1 ← if f.hasPrepare then prepareValue f v else .ok v
            let d1 : DocState := { d with store := setStore d.store key v1 }
            let d2 := if changed then changedF key d1 else d1
            updateGo rest changed d2 data
  | (key, none) :: rest, changed, d, data =>
      match lookupStr data key with
      | none => updateGo rest changed d data
      | some v =>
          if v.isNone then updateGo rest changed d data
          else updateGo rest changed { d with store := setStore d.store key v } data
termination_by fields _ _ _ => (optFieldsSize fields, 0)
decreasing_by all_goals (simp [fdSize, schemaSize, optFieldsSize]; try omega)

/-- The per-field `do` action of the generated `view` closure of
`Document.add_view` (lines 479-520): `methodcaller("to_N")` for an
embedded field, `loopcaller` for a list of embedded documents,
`mappingcaller` for a mapping with embedded values, and the raw value for
every other field.  A nested `to_N` call runs with its default arguments,
hence with validation enabled.  `methodcaller` on a value with no such
method raises; the exact exception class for the unreachable raw-value
cases is collapsed to `typeError`/`attributeError`. -/
def exportField : FieldDesc → Value → Except PyErr Value
  | .embF _ γ _, v =>
      match v with
      | .vdoc _ st => do
          let b ← validateFieldsGo γ st true
          if b then do
            let prs ← exportGo γ st
            .ok (.vdict (prs.map (fun p => (.vstr p.1, p.2))))
          else .error .validationError
      | _ => .error .attributeError
  | .listF sub _ _ _, v =>
      if sub.isEmb then
        match v with
        | .vlist xs => do
            let ys ← exportListGo sub xs
            .ok (.vlist ys)
        | _ => .error .typeError
      else .ok v
  | .mapF _ vs _, v =>
      if vs.isEmb then
        match v with
        | .vdict prs => do
            let qs ← exportMapGo vs prs
            .ok (.vdict qs)
        | _ => .error .attributeError
      else .ok v
  | _, v => .ok v
termination_by f _ => (fdSize f, 1)
decreasing_by all_goals (simp [fdSize, schemaSize]; try omega)

/-- `loopcaller` (lines 497-501): `methodcaller("to_N")` over the list. -/
def exportListGo : FieldDesc → List Value → Except PyErr (List Value)
  | _, [] => .ok []
  | sub, x :: xs => do
      let y ← exportField sub x
      let ys ← exportListGo sub xs
      .ok (y :: ys)
termination_by sub xs => (fdSize sub, xs.length + 2)
decreasing_by all_goals (simp [fdSize, schemaSize]; try omega)

/-- `mappingcaller` (lines 512-516): `methodcaller("to_N")` over the
values, keys kept raw. -/
def exportMapGo : FieldDesc → List (Value × Value) → Except PyErr (List (Value × Value))
  | _, [] => .ok []
  | vs, (k, v) :: rest => do
      let v1 ← exportField vs v
      let tail ← exportMapGo vs rest
      .ok ((k, v1) :: tail)
termination_by vs prs => (fdSize vs, prs.length + 3)
decreasing_by all_goals (simp [fdSize, schemaSize]; try omega)

/-- The field walk of the generated `view` closure (lines 532-538) over a
full field table, as used by nested exports (the lazily auto-registered
default view of an embedded type covers all its fields): resolve each
field, skip it when the value `is None`, otherwise run the per-field `do`
action. -/
def exportGo : Schema → Store → Except PyErr (List (String × Value))
  | [], _ => .ok []
  | (name, f) :: rest, st => do
      let v ← resolveValue f st name
      if v.isNone then exportGo rest st
      else do
        let ev ← exportField f v
        let tail ← exportGo rest st
        .ok ((name, ev) :: tail)
termination_by pending _ => (schemaSize pending, 1)
decreasing_by all_goals (simp [fdSize, schemaSize]; try omega)

end

/-- A pipeline filter, as accepted by `add_source`/`add_view`: optional
function from raw mapping to raw mapping.  The string-named method
indirection (`filter="rename_id"`) resolves to such a function at call
time and is modelled by the function it resolves to. -/
abbrev Filt := Option (List (String × Value) → List (String × Value))

def applyFilt (filt : Filt) (data : List (String × Value)) : List (String × Value) :=
  match filt with
  | some f => f data
  | none => data

/-- The generated `update_from_N` method (lines 420-444): optional filter,
then the field walk of `updateGo`. -/
def updateFrom (fields : PipeFields) (filt : Filt) (changed : Bool)
    (d : DocState) (data : List (String × Value)) : Except PyErr DocState :=
  updateGo fields changed d (applyFilt filt data)

/-- The generated `from_N` classmethod (lines 447-453): a fresh instance
(whose `__init__` runs the baseline import on an empty mapping, a no-op),
then `update_from_N(kwargs, changed=False)`. -/
def fromPipe (fields : PipeFields) (filt : Filt)
    (data : List (String × Value)) : Except PyErr DocState :=
  updateFrom fields filt false initDocState data

/-- `Document.update_from_dict(values, changed=False)` on a fresh instance:
`Document.__init__` (lines 289-295) and the baseline `from_dict`. -/
def fromDict (γ : Schema) (data : List (String × Value)) : Except PyErr DocState :=
  fromPipe (ofSchemaFields γ) none data

/-- `Document.validate` (lines 351-365), cache included: memoised when
strict and the cache is valid; on strict success the cache is set. -/
def validateDocument (γ : Schema) (d : DocState) (stopOnRequired : Bool) :
    Except PyErr (Bool × DocState) :=
  if stopOnRequired && d.isValidCache then .ok (true, d)
  else do
    let b ← validateFieldsGo γ d.store stopOnRequired
    if stopOnRequired && b then .ok (true, { d with isValidCache := true })
    else .ok (b, d)

/-- The `todo` walk of the generated `view` closure for an explicit key
list (lines 479-538): `cls._fields.get(key)` decides the per-field action;
`getattr(self, key)` on a key with no field and no other class attribute
raises `AttributeError` (the model carries no extra class attributes or
properties). -/
def topViewGo (γ : Schema) (st : Store) : List String → Except PyErr (List (String × Value))
  | [] => .ok []
  | name :: rest =>
      match lookupStr γ name with
      | some f => do
          let v ← resolveValue f st name
          if v.isNone then topViewGo γ st rest
          else do
            let ev ← exportField f v
            let tail ← topViewGo γ st rest
            .ok ((name, ev) :: tail)
      | none => .error .attributeError

/-- The generated `to_N` method (lines 522-543): optional strict
validation raising `ValidationException` on failure, restriction to the
modified set when `only_modified`, the field walk, and the optional
filter.  The cache write performed by the embedded `validate()` call is a
state effect studied in the `DicoB` layer; the produced mapping is not
affected by it. -/
def toView (γ : Schema) (names : List String) (only_modified validateFlag : Bool)
    (filt : Filt) (d : DocState) : Except PyErr (List (String × Value)) := do
  if validateFlag then do
    let r ← validateDocument γ d true
    if r.1 then .ok () else .error .validationError
  else .ok ()
  let keys := if only_modified then names.filter (fun k => k ∈ d.modified) else names
  let prs ← topViewGo γ d.store keys
  .ok (applyFilt filt prs)

/-- The baseline `to_dict` view over the full field table. -/
def toDict (γ : Schema) (only_modified validateFlag : Bool) (d : DocState) :
    Except PyErr (List (String × Value)) :=
  toView γ (γ.map (fun p => p.1)) only_modified validateFlag none d

/-- `Document.__getattr__`/attribute read (lines 297-308): a materialized
attribute, else the field default, else `AttributeError` for an undeclared
name. -/
def getAttrF (γ : Schema) (st : Store) (name : String) : Except PyErr Value :=
  match lookupStr st name with
  | some v => .ok v
  | none =>
      match lookupStr γ name with
      | some f =>
          (match f.attrs.default with
           | none => .ok .vnone
           | some .vnone => .ok .vnone
           | some d => if f.hasPrepare then prepareValue f d else .ok d)
      | none => .error .attributeError

/-- `Document.__setattr__` (lines 310-316): a declared field's value is
prepared and the field marked changed; for any other name the method falls
through to `object.__setattr__`, which stores the value silently. -/
def setAttrF (γ : Schema) (name : String) (v : Value) (d : DocState) :
    Except PyErr DocState :=
  match lookupStr γ name with
  | some f => do
      let v1 ← if f.hasPrepare then prepareValue f v else .ok v
      let d1 := changedF name d
      .ok { d1 with store := setStore d1.store name v1 }
  | none => .ok { d with store := setStore d.store name v }

end Dico


open Dico

/-- Reduction of the `Except` monad bind on a success value, for `simp`
evaluation of the pipeline functions. -/
@[simp] theorem exceptBind_ok {α β : Type} (x : α) (f : α → Except PyErr β) :
    (Except.ok x >>= f) = f x := rfl

/-- Reduction of the `Except` monad bind on an error value. -/
@[simp] theorem exceptBind_error {α β : Type} (e : PyErr) (f : α → Except PyErr β) :
    ((Except.error e : Except PyErr α) >>= f) = Except.error e := rfl

/-- C7: a composite field descriptor built with a wrong-kind argument — a
non-Document type passed to `EmbeddedDocumentField`, a non-`BaseField`
subfield passed to `ListField`, a non-`BaseField` key- or value-subfield
passed to `MappingField` — raises `AttributeError` immediately when the
descriptor is constructed; no descriptor is produced, so nothing is
deferred to validation time. -/
theorem C7_composite_ctor_wrong_kind (arg k v : CtorArg) (a : FieldAttrs)
    (mx mn : Option Int) :
    ((∀ cls γ, arg ≠ .aDocClass cls γ) →
      mkEmbeddedDocumentField arg a = .error .attributeError) ∧
    ((∀ f, arg ≠ .aBaseField f) →
      mkListField arg mx mn a = .error .attributeError) ∧
    (((∀ f, k ≠ .aBaseField f) ∨ (∀ f, v ≠ .aBaseField f)) →
      mkMappingField k v a = .error .attributeError) := by
  refine ⟨?_, ?_, ?_⟩
  · intro h
    cases arg with
    | aBaseField f => rfl
    | aDocClass cls γ => exact absurd rfl (h cls γ)
    | aPlain => rfl
  · intro h
    cases arg with
    | aBaseField f => exact absurd rfl (h f)
    | aDocClass cls γ => simp [mkListField]
    | aPlain => simp [mkListField]
  · intro h
    cases k with
    | aBaseField fk =>
      cases v with
      | aBaseField fv =>
        rcases h with h | h
        · exact absurd rfl (h fk)
        · exact absurd rfl (h fv)
      | aDocClass cls γ => simp [mkMappingField]
      | aPlain => simp [mkMappingField]
    | aDocClass cls γ => cases v <;> simp [mkMappingField]
    | aPlain => cases v <;> simp [mkMappingField]

/-- Witness for C7 at concrete wrong-kind arguments (the builtin `int`
passed everywhere, as in the tests `test_list_embedded` and
`test_embedded`). -/
theorem C7_composite_ctor_wrong_kind_witness :
    mkEmbeddedDocumentField .aPlain ⟨none, false, none⟩ = .error .attributeError ∧
    mkListField .aPlain none none ⟨none, false, none⟩ = .error .attributeError ∧
    mkMappingField .aPlain .aPlain ⟨none, false, none⟩ = .error .attributeError := by
  have h := C7_composite_ctor_wrong_kind .aPlain .aPlain .aPlain ⟨none, false, none⟩ none none
  exact ⟨h.1 (by intro cls γ hc; cases hc), h.2.1 (by intro f hf; cases hf),
    h.2.2 (Or.inl (by intro f hf; cases hf))⟩

/-- C8 counterexample: the claim asserts `StringField._validate('')` is
true for an optional field for every `min_length`/`max_length`
configuration; with `min_length=1` (and no pattern) the length check runs
first and rejects the empty string. -/
theorem C8_empty_string_counterexample :
    stringValidate none none (some 1) false (.vstr "") = false := rfl

/-- C8 amended: for an optional `StringField`, the empty string is valid
regardless of the configured pattern, provided the length bounds admit
length 0 (`min_length` absent or at most 0, `max_length` absent or at
least 0). -/
theorem C8_empty_string_amended (r : Option (String → Bool)) (mx mn : Option Int)
    (hmx : ∀ m, mx = some m → 0 ≤ m) (hmn : ∀ m, mn = some m → m ≤ 0) :
    stringValidate r mx mn false (.vstr "") = true := by
  have hov : overMax (0 : Int) mx = false := by
    cases mx with
    | none => rfl
    | some m => have := hmx m rfl; simp [overMax]; omega
  have hun : underMin (0 : Int) mn = false := by
    cases mn with
    | none => rfl
    | some m => have := hmn m rfl; simp [underMin]; omega
  cases r with
  | none => simp [stringValidate, String.length_empty, hov, hun]
  | some rr =>
    simp only [stringValidate, String.length_empty, Nat.cast_zero, hov, hun,
      Bool.false_eq_true, if_false]
    by_cases hrr : rr "" = true <;> simp [hrr]

/-- Witness for C8 amended: a never-matching pattern together with
`max_length=5`, on an optional field. -/
theorem C8_empty_string_amended_witness :
    stringValidate (some (fun _ => false)) (some 5) none false (.vstr "") = true :=
  C8_empty_string_amended (some (fun _ => false)) (some 5) none
    (by intro m hm; cases hm; omega) (by intro m hm; cases hm)


namespace Dico

/-- Removal of every binding of a key from a raw mapping (used to compare
a key bound to `None` with an absent key). -/
def eraseKey : List (String × Value) → String → List (String × Value)
  | [], _ => []
  | (k1, v) :: rest, k =>
      if k1 = k then eraseKey rest k else (k1, v) :: eraseKey rest k

theorem lookupStr_eraseKey_self (data : List (String × Value)) (k : String) :
    lookupStr (eraseKey data k) k = none := by
  induction data with
  | nil => rfl
  | cons p rest ih =>
    obtain ⟨k1, v1⟩ := p
    by_cases h : k1 = k <;> simp [eraseKey, lookupStr, h, ih]

theorem lookupStr_eraseKey_ne (data : List (String × Value)) (k k1 : String)
    (h : k1 ≠ k) : lookupStr (eraseKey data k) k1 = lookupStr data k1 := by
  induction data with
  | nil => rfl
  | cons p rest ih =>
    obtain ⟨k2, v2⟩ := p
    by_cases h2 : k2 = k
    · subst h2
      simp [eraseKey, lookupStr, Ne.symm h, ih]
    · by_cases h3 : k2 = k1 <;> simp [eraseKey, lookupStr, h, h2, h3, ih]

theorem lookupStr_setStore_ne (st : Store) (key k : String) (v : Value)
    (h : k ≠ key) : lookupStr (setStore st key v) k = lookupStr st k := by
  induction st with
  | nil => simp [setStore, lookupStr, Ne.symm h]
  | cons p rest ih =>
    obtain ⟨k1, v1⟩ := p
    by_cases h1 : k1 = key
    · subst h1
      simp [setStore, lookupStr, Ne.symm h]
    · simp [setStore, lookupStr, h1, ih]

theorem mem_insertStr (x name : String) (l : List String) :
    x ∈ insertStr name l ↔ x = name ∨ x ∈ l := by
  by_cases h : name ∈ l
  · simp [insertStr, h]
    intro hx; subst hx; exact h
  · simp [insertStr, h, List.mem_cons]


/- Step lemmas unfolding one field of the generated update walk. -/

theorem updateGo_cons_skip (key : String) (f? : Option FieldDesc) (rest : PipeFields)
    (changed : Bool) (d : DocState) (data : List (String × Value))
    (hv : lookupStr data key = none ∨ lookupStr data key = some .vnone) :
    updateGo ((key, f?) :: rest) changed d data = updateGo rest changed d data := by
  cases f? <;> rcases hv with hv | hv <;> simp [updateGo, hv, Value.isNone]

theorem updateGo_cons_some_noprep (key : String) (f : FieldDesc) (rest : PipeFields)
    (changed : Bool) (d : DocState) (data : List (String × Value)) (v : Value)
    (hprep : f.hasPrepare = false) (hv : lookupStr data key = some v)
    (hv0 : v ≠ .vnone) :
    updateGo ((key, some f) :: rest) changed d data =
      updateGo rest changed
        (if changed then changedF key { d with store := setStore d.store key v }
         else { d with store := setStore d.store key v }) data := by
  simp [updateGo, hv, Value.isNone_eq_false v hv0, hprep]

theorem updateGo_cons_some_prep_err (key : String) (f : FieldDesc) (rest : PipeFields)
    (changed : Bool) (d : DocState) (data : List (String × Value)) (v : Value)
    (e : PyErr) (hprep : f.hasPrepare = true) (hv : lookupStr data key = some v)
    (hv0 : v ≠ .vnone) (hp : prepareValue f v = .error e) :
    updateGo ((key, some f) :: rest) changed d data = .error e := by
  simp [updateGo, hv, Value.isNone_eq_false v hv0, hprep, hp]

theorem updateGo_cons_some_prep_ok (key : String) (f : FieldDesc) (rest : PipeFields)
    (changed : Bool) (d : DocState) (data : List (String × Value)) (v v1 : Value)
    (hprep : f.hasPrepare = true) (hv : lookupStr data key = some v)
    (hv0 : v ≠ .vnone) (hp : prepareValue f v = .ok v1) :
    updateGo ((key, some f) :: rest) changed d data =
      updateGo rest changed
        (if changed then changedF key { d with store := setStore d.store key v1 }
         else { d with store := setStore d.store key v1 }) data := by
  simp [updateGo, hv, Value.isNone_eq_false v hv0, hprep, hp]

theorem updateGo_cons_none_val (key : String) (rest : PipeFields)
    (changed : Bool) (d : DocState) (data : List (String × Value)) (v : Value)
    (hv : lookupStr data key = some v) (hv0 : v ≠ .vnone) :
    updateGo ((key, none) :: rest) changed d data =
      updateGo rest changed { d with store := setStore d.store key v } data := by
  simp [updateGo, hv, Value.isNone_eq_false v hv0]

/-- A key bound to `None` in the raw mapping makes the generated update
behave exactly as if the key were absent. -/
theorem updateGo_eraseKey (fields : PipeFields) (changed : Bool) (d : DocState)
    (data : List (String × Value)) (k : String)
    (hk : lookupStr data k = some .vnone) :
    updateGo fields changed d data = updateGo fields changed d (eraseKey data k) := by
  induction fields generalizing d with
  | nil => simp [updateGo]
  | cons p rest ih =>
    obtain ⟨key, f?⟩ := p
    by_cases hkey : key = k
    · have hk2 : lookupStr data key = some .vnone := by rw [hkey]; exact hk
      have he2 : lookupStr (eraseKey data k) key = none := by
        rw [hkey]; exact lookupStr_eraseKey_self data k
      rw [updateGo_cons_skip key f? rest changed d data (Or.inr hk2),
        updateGo_cons_skip key f? rest changed d (eraseKey data k) (Or.inl he2)]
      exact ih d
    · have hlk : lookupStr (eraseKey data k) key = lookupStr data key :=
        lookupStr_eraseKey_ne data k key hkey
      cases hv : lookupStr data key with
      | none =>
        rw [updateGo_cons_skip key f? rest changed d data (Or.inl hv),
          updateGo_cons_skip key f? rest changed d (eraseKey data k)
            (Or.inl (hlk.trans hv))]
        exact ih d
      | some v =>
        by_cases hv0 : v = Value.vnone
        · subst hv0
          rw [updateGo_cons_skip key f? rest changed d data (Or.inr hv),
            updateGo_cons_skip key f? rest changed d (eraseKey data k)
              (Or.inr (hlk.trans hv))]
          exact ih d
        · cases f? with
          | some f =>
            by_cases hprep : f.hasPrepare = true
            · cases hp : prepareValue f v with
              | error e =>
                rw [updateGo_cons_some_prep_err key f rest changed d data v e hprep hv hv0 hp,
                  updateGo_cons_some_prep_err key f rest changed d (eraseKey data k) v e hprep
                    (hlk.trans hv) hv0 hp]
              | ok v1 =>
                rw [updateGo_cons_some_prep_ok key f rest changed d data v v1 hprep hv hv0 hp,
                  updateGo_cons_some_prep_ok key f rest changed d (eraseKey data k) v v1 hprep
                    (hlk.trans hv) hv0 hp]
                exact ih _
            · have hprep2 : f.hasPrepare = false := by
                revert hprep; cases f.hasPrepare <;> simp
              rw [updateGo_cons_some_noprep key f rest changed d data v hprep2 hv hv0,
                updateGo_cons_some_noprep key f rest changed d (eraseKey data k) v hprep2
                  (hlk.trans hv) hv0]
              exact ih _
          | none =>
            rw [updateGo_cons_none_val key rest changed d data v hv hv0,
              updateGo_cons_none_val key rest changed d (eraseKey data k) v
                (hlk.trans hv) hv0]
            exact ih _

/-- A key absent from the raw mapping is untouched by the generated
update: its stored value and its dirty mark are preserved. -/
theorem updateGo_untouched (fields : PipeFields) (changed : Bool) (d : DocState)
    (data : List (String × Value)) (k : String)
    (hk : lookupStr data k = none) :
    ∀ d2, updateGo fields changed d data = .ok d2 →
      lookupStr d2.store k = lookupStr d.store k ∧ (k ∈ d2.modified ↔ k ∈ d.modified) := by
  induction fields generalizing d with
  | nil =>
    intro d2 h
    simp [updateGo] at h
    subst h
    exact ⟨rfl, Iff.rfl⟩
  | cons p rest ih =>
    obtain ⟨key, f?⟩ := p
    intro d2 h
    cases hv : lookupStr data key with
    | none =>
      rw [updateGo_cons_skip key f? rest changed d data (Or.inl hv)] at h
      exact ih d d2 h
    | some v =>
      have hkey : k ≠ key := by
        intro he; subst he; simp_all
      by_cases hv0 : v = Value.vnone
      · subst hv0
        rw [updateGo_cons_skip key f? rest changed d data (Or.inr hv)] at h
        exact ih d d2 h
      · have hstep : ∀ d1 : DocState,
            updateGo rest changed (if changed then changedF key d1 else d1) data = .ok d2 →
            lookupStr d2.store k = lookupStr d1.store k ∧
              (k ∈ d2.modified ↔ k ∈ d1.modified) := by
          intro d1 h1
          by_cases hc : changed
          · rw [if_pos hc] at h1
            have := ih _ d2 h1
            simpa [changedF, mem_insertStr, hkey] using this
          · rw [if_neg hc] at h1
            exact ih _ d2 h1
        cases f? with
        | some f =>
          by_cases hprep : f.hasPrepare = true
          · cases hp : prepareValue f v with
            | error e =>
              rw [updateGo_cons_some_prep_err key f rest changed d data v e hprep hv hv0 hp] at h
              exact absurd h (by simp)
            | ok v1 =>
              rw [updateGo_cons_some_prep_ok key f rest changed d data v v1 hprep hv hv0 hp] at h
              have := hstep _ h
              simpa [lookupStr_setStore_ne _ _ _ _ hkey] using this
          · have hprep2 : f.hasPrepare = false := by
              revert hprep; cases f.hasPrepare <;> simp
            rw [updateGo_cons_some_noprep key f rest changed d data v hprep2 hv hv0] at h
            have := hstep _ h
            simpa [lookupStr_setStore_ne _ _ _ _ hkey] using this
        | none =>
          rw [updateGo_cons_none_val key rest changed d data v hv hv0] at h
          have := ih _ d2 h
          simpa [lookupStr_setStore_ne _ _ _ _ hkey] using this

/- Step lemmas unfolding one key of the generated view walk. -/

theorem topViewGo_cons_undeclared (γ : Schema) (st : Store) (name : String)
    (rest : List String) (hg : lookupStr γ name = none) :
    topViewGo γ st (name :: rest) = .error .attributeError := by
  simp [topViewGo, hg]

theorem topViewGo_cons_resolve_err (γ : Schema) (st : Store) (name : String)
    (rest : List String) (g : FieldDesc) (e : PyErr)
    (hg : lookupStr γ name = some g) (hr : resolveValue g st name = .error e) :
    topViewGo γ st (name :: rest) = .error e := by
  simp [topViewGo, hg, hr]

theorem topViewGo_cons_skip (γ : Schema) (st : Store) (name : String)
    (rest : List String) (g : FieldDesc) (hg : lookupStr γ name = some g)
    (hv : resolveValue g st name = .ok .vnone) :
    topViewGo γ st (name :: rest) = topViewGo γ st rest := by
  simp [topViewGo, hg, hv, Value.isNone]

theorem topViewGo_cons_export_err (γ : Schema) (st : Store) (name : String)
    (rest : List String) (g : FieldDesc) (v : Value) (e : PyErr)
    (hg : lookupStr γ name = some g) (hv : resolveValue g st name = .ok v)
    (hv0 : v ≠ .vnone) (he : exportField g v = .error e) :
    topViewGo γ st (name :: rest) = .error e := by
  simp [topViewGo, hg, hv, Value.isNone_eq_false v hv0, he]

theorem topViewGo_cons_export_ok (γ : Schema) (st : Store) (name : String)
    (rest : List String) (g : FieldDesc) (v ev : Value)
    (hg : lookupStr γ name = some g) (hv : resolveValue g st name = .ok v)
    (hv0 : v ≠ .vnone) (he : exportField g v = .ok ev) :
    topViewGo γ st (name :: rest) =
      Except.map (fun tail => (name, ev) :: tail) (topViewGo γ st rest) := by
  cases ht : topViewGo γ st rest <;>
    simp [topViewGo, hg, hv, Value.isNone_eq_false v hv0, he, ht, Except.map]

/-- The view walk omits every key whose field resolves to `None`. -/
theorem topViewGo_omits_none (γ : Schema) (st : Store) (k : String) (f : FieldDesc)
    (hf : lookupStr γ k = some f) (hv : resolveValue f st k = .ok .vnone) :
    ∀ (names : List String) (m : List (String × Value)),
      topViewGo γ st names = .ok m → lookupStr m k = none := by
  intro names
  induction names with
  | nil =>
    intro m h
    simp [topViewGo] at h
    subst h
    rfl
  | cons name rest ih =>
    intro m h
    cases hg : lookupStr γ name with
    | none =>
      rw [topViewGo_cons_undeclared γ st name rest hg] at h
      exact absurd h (by simp)
    | some g =>
      by_cases hnk : name = k
      · subst hnk
        rw [hf] at hg
        cases hg
        rw [topViewGo_cons_skip γ st name rest f hf hv] at h
        exact ih m h
      · cases hr : resolveValue g st name with
        | error e =>
          rw [topViewGo_cons_resolve_err γ st name rest g e hg hr] at h
          exact absurd h (by simp)
        | ok v =>
          by_cases hv0 : v = Value.vnone
          · subst hv0
            rw [topViewGo_cons_skip γ st name rest g hg hr] at h
            exact ih m h
          · cases he : exportField g v with
            | error e =>
              rw [topViewGo_cons_export_err γ st name rest g v e hg hr hv0 he] at h
              exact absurd h (by simp)
            | ok ev =>
              rw [topViewGo_cons_export_ok γ st name rest g v ev hg hr hv0 he] at h
              cases ht : topViewGo γ st rest with
              | error e => rw [ht] at h; exact absurd h (by simp [Except.map])
              | ok tail =>
                rw [ht] at h
                simp only [Except.map, Except.ok.injEq] at h
                subst h
                simpa [lookupStr, hnk] using ih tail ht

end Dico

namespace Dico

/- Step and inversion lemmas for the validation walk. -/

theorem validateFieldsGo_cons_resolve_err (n : String) (f : FieldDesc) (rest : Schema)
    (st : Store) (stop : Bool) (e : PyErr) (hr : resolveValue f st n = .error e) :
    validateFieldsGo ((n, f) :: rest) st stop = .error e := by
  simp [validateFieldsGo, hr]

theorem validateFieldsGo_cons_vnone_fail (n : String) (f : FieldDesc) (rest : Schema)
    (st : Store) (hr : resolveValue f st n = .ok .vnone)
    (hreq : f.attrs.required = true) :
    validateFieldsGo ((n, f) :: rest) st true = .ok false := by
  simp [validateFieldsGo, hr, Value.isNone, hreq]

theorem validateFieldsGo_cons_vnone_skip (n : String) (f : FieldDesc) (rest : Schema)
    (st : Store) (stop : Bool) (hr : resolveValue f st n = .ok .vnone)
    (hnotfail : (stop && f.attrs.required) = false) :
    validateFieldsGo ((n, f) :: rest) st stop = validateFieldsGo rest st stop := by
  simp [validateFieldsGo, hr, Value.isNone, hnotfail]

theorem validateFieldsGo_cons_pass (n : String) (f : FieldDesc) (rest : Schema)
    (st : Store) (stop : Bool) (v : Value) (hr : resolveValue f st n = .ok v)
    (hv0 : v ≠ .vnone)
    (hch : (match f.attrs.choices with | some mem => mem v | none => true) = true)
    (htv : fieldTypeValidate f v = .ok true) :
    validateFieldsGo ((n, f) :: rest) st stop = validateFieldsGo rest st stop := by
  simp [validateFieldsGo, hr, Value.isNone_eq_false v hv0, hch, htv]

/-- Inversion: a successful strict walk over a cons cell means the head
field did not trip the required-and-absent rule and the tail walk also
succeeded. -/
theorem validateFieldsGo_cons_ok_true (n : String) (f : FieldDesc) (rest : Schema)
    (st : Store) (stop : Bool)
    (h : validateFieldsGo ((n, f) :: rest) st stop = .ok true) :
    (resolveValue f st n = .ok .vnone → (stop && f.attrs.required) = false) ∧
      validateFieldsGo rest st stop = .ok true := by
  cases hr : resolveValue f st n with
  | error e =>
    rw [validateFieldsGo_cons_resolve_err n f rest st stop e hr] at h
    exact absurd h (by simp)
  | ok v =>
    by_cases hvn : v = Value.vnone
    · subst hvn
      cases hfail : stop && f.attrs.required with
      | true =>
        have hreq : f.attrs.required = true := by
          revert hfail; cases f.attrs.required <;> cases stop <;> simp
        have hstop : stop = true := by
          revert hfail; cases stop <;> simp
        subst hstop
        rw [validateFieldsGo_cons_vnone_fail n f rest st hr hreq] at h
        exact absurd h (by simp)
      | false =>
        rw [validateFieldsGo_cons_vnone_skip n f rest st stop hr hfail] at h
        exact ⟨fun _ => rfl, h⟩
    · refine ⟨fun hc => ?_, ?_⟩
      · injection hc with hc2
        exact absurd hc2 hvn
      · revert h
        simp only [validateFieldsGo, hr, exceptBind_ok, Value.isNone_eq_false v hvn,
          Bool.false_eq_true, if_false]
        cases hch : (match f.attrs.choices with | some mem => mem v | none => true) with
        | false => intro h; simp [hch] at h
        | true =>
          simp only [hch, if_true]
          cases htv : fieldTypeValidate f v with
          | error e => intro h; simp at h
          | ok b =>
            cases b
            · intro h; simp at h
            · intro h; simpa using h

end Dico

/-- C10: in a generated import (`update_from_N` with no filter, over an
arbitrary resolved field list), a key that is present in the raw mapping
but bound to `None` is treated exactly like an absent key: the whole
update behaves identically to the update on the mapping with that key
removed, and in particular the field's stored value and its dirty mark are
untouched.  Symmetrically, a generated export (`to_N` with no filter, any
key list, with or without `only_modified`/`validate`) omits from its
result every field whose current resolved value is `None`. -/
theorem C10_none_key_like_absent
    (fields : PipeFields) (changed : Bool) (d : DocState)
    (data : List (String × Value)) (k : String)
    (hk : lookupStr data k = some .vnone) :
    (updateFrom fields none changed d data
      = updateFrom fields none changed d (eraseKey data k)) ∧
    (∀ d2, updateFrom fields none changed d data = .ok d2 →
      lookupStr d2.store k = lookupStr d.store k ∧ (k ∈ d2.modified ↔ k ∈ d.modified)) ∧
    (∀ (γ : Schema) (e : DocState) (names : List String) (om vf : Bool)
        (f : FieldDesc) (m : List (String × Value)),
      lookupStr γ k = some f → resolveValue f e.store k = .ok .vnone →
      toView γ names om vf none e = .ok m → lookupStr m k = none) := by
  refine ⟨?_, ?_, ?_⟩
  · exact updateGo_eraseKey fields changed d data k hk
  · intro d2 h
    rw [updateFrom, applyFilt, updateGo_eraseKey fields changed d data k hk] at h
    exact updateGo_untouched fields changed d (eraseKey data k) k
      (lookupStr_eraseKey_self data k) d2 h
  · intro γ e names om vf f m hf hv h
    rw [toView] at h
    revert h
    cases hvf : vf with
    | false =>
      simp only [Bool.false_eq_true, if_false, exceptBind_ok]
      cases ht : topViewGo γ e.store (if om then names.filter (fun k => k ∈ e.modified) else names) with
      | error e2 => intro h; simp at h
      | ok prs =>
        intro h
        simp only [exceptBind_ok, applyFilt, Except.ok.injEq] at h
        subst h
        exact topViewGo_omits_none γ e.store k f hf hv _ prs ht
    | true =>
      simp only [if_true]
      cases hvd : validateDocument γ e true with
      | error e2 => intro h; simp at h
      | ok r =>
        cases hr1 : r.1 with
        | false => intro h; simp [hr1] at h
        | true =>
          simp only [hr1, if_true, exceptBind_ok]
          cases ht : topViewGo γ e.store (if om then names.filter (fun k => k ∈ e.modified) else names) with
          | error e2 => intro h; simp at h
          | ok prs =>
            intro h
            simp only [exceptBind_ok, applyFilt, Except.ok.injEq] at h
            subst h
            exact topViewGo_omits_none γ e.store k f hf hv _ prs ht

/-- Witness for C10 at a concrete input: one declared integer field whose
key arrives bound to `None`. -/
theorem C10_none_key_like_absent_witness :
    lookupStr [("id", Value.vnone)] "id" = some .vnone ∧
    (updateFrom [("id", some (.intF ⟨none, false, none⟩))] none true initDocState
        [("id", Value.vnone)]
      = updateFrom [("id", some (.intF ⟨none, false, none⟩))] none true initDocState
          (eraseKey [("id", Value.vnone)] "id")) :=
  ⟨rfl, (C10_none_key_like_absent [("id", some (.intF ⟨none, false, none⟩))] true
    initDocState [("id", Value.vnone)] "id" rfl).1⟩

/-- C9 (code bug): the claim — and `test_slots` in src/tests.py — require
that no operation stores a value under an undeclared name, yet
`Document.__setattr__` (src/dico/__init__.py lines 310-316) falls through
to `object.__setattr__` for a name outside the field table, so
`user.truc = 2` is stored silently instead of raising `AttributeError`,
and a subsequent read returns the stored value.  The parts of the claim
the code does satisfy are shown alongside: reading an undeclared, unwritten
name is an `AttributeError`, and construction from a mapping silently
ignores undeclared keys. -/
theorem C9_undeclared_write_is_stored :
    (setAttrF [("id", .intF ⟨none, false, none⟩)] "truc" (.vint 2) initDocState
      = .ok { store := [("truc", .vint 2)], modified := [], isValidCache := false }) ∧
    (getAttrF [("id", .intF ⟨none, false, none⟩)] [("truc", .vint 2)] "truc"
      = .ok (.vint 2)) ∧
    (getAttrF [("id", .intF ⟨none, false, none⟩)] [] "truc" = .error .attributeError) ∧
    (fromDict [("id", .intF ⟨none, false, none⟩)] [("truc", .vint 2)] = .ok initDocState) := by
  refine ⟨rfl, rfl, rfl, ?_⟩
  simp [fromDict, fromPipe, updateFrom, applyFilt, updateGo, ofSchemaFields,
    lookupStr, initDocState]

/-- C2 (code bug): the claim states that `validate()` never raises and
that `ValidationException` is raised exactly by an export invoked with
validation enabled whose `validate()` is false.  The first conjunct
evaluates the code at the failing input: an `IPAddressField` holding the
integer 3 makes the strict validation propagate `TypeError`
(`IPAddressField._validate`, src/dico/__init__.py lines 216-224, calls
`socket.inet_pton` without an isinstance guard and catches only
`socket.error`).  The remaining conjuncts show the export direction that
does hold at its own invocation level: with validation enabled, a false
`validate()` yields `ValidationException`, and a true `validate()` makes
the export behave exactly as the same export with validation disabled. -/
theorem C2_validate_raises_on_ip_field :
    (validateDocument [("ip", .ipF ⟨none, false, none⟩)]
        { store := [("ip", .vint 3)], modified := [], isValidCache := false } true
      = .error .typeError) ∧
    (∀ (γ : Schema) (names : List String) (om : Bool) (filt : Filt) (d d2 : DocState),
      validateDocument γ d true = .ok (false, d2) →
      toView γ names om true filt d = .error .validationError) ∧
    (∀ (γ : Schema) (names : List String) (om : Bool) (filt : Filt) (d d2 : DocState),
      validateDocument γ d true = .ok (true, d2) →
      toView γ names om true filt d = toView γ names om false filt d) := by
  refine ⟨?_, ?_, ?_⟩
  · simp [validateDocument, validateFieldsGo, resolveValue, lookupStr,
      fieldTypeValidate, ipValidate, FieldDesc.attrs, Value.isNone]
  · intro γ names om filt d d2 h
    simp [toView, h]
  · intro γ names om filt d d2 h
    simp [toView, h]

/-- Witness for C2's universally quantified conjuncts, on a one-field
schema whose required field is missing (validation false) and on a valid
empty schema (validation true). -/
theorem C2_validate_raises_on_ip_field_witness :
    (validateDocument [("n", .intF ⟨none, true, none⟩)] initDocState true
      = .ok (false, initDocState)) ∧
    (toView [("n", .intF ⟨none, true, none⟩)] ["n"] false true none initDocState
      = .error .validationError) ∧
    (validateDocument [] initDocState true = .ok (true, { initDocState with isValidCache := true })) ∧
    (toView [] [] false true none initDocState = toView [] [] false false none initDocState) := by
  have h1 : validateDocument [("n", .intF ⟨none, true, none⟩)] initDocState true
      = .ok (false, initDocState) := by
    simp [validateDocument, validateFieldsGo, resolveValue, lookupStr,
      FieldDesc.attrs, initDocState, Value.isNone]
  have h3 : validateDocument ([] : Schema) initDocState true
      = .ok (true, { initDocState with isValidCache := true }) := by
    simp [validateDocument, validateFieldsGo, initDocState]
  exact ⟨h1,
    (C2_validate_raises_on_ip_field).2.1 _ ["n"] false none initDocState initDocState h1,
    h3,
    (C2_validate_raises_on_ip_field).2.2 _ [] false none initDocState _ h3⟩

/-- C4 counterexample: a document whose required field `n` has no value
and no default, so the claim demands `validate()` (strict) return false —
but an `IPAddressField` earlier in the field table holds the integer 3,
and the validation walk raises `TypeError` before reaching `n` instead of
returning a boolean. -/
theorem C4_required_missing_counterexample :
    (FieldDesc.intF ⟨none, true, none⟩).attrs.required = true ∧
    lookupStr [("ip", Value.vint 3)] "n" = none ∧
    validateDocument
        [("ip", .ipF ⟨none, false, none⟩), ("n", .intF ⟨none, true, none⟩)]
        { store := [("ip", Value.vint 3)], modified := [], isValidCache := false } true
      = .error .typeError := by
  refine ⟨rfl, rfl, ?_⟩
  simp [validateDocument, validateFieldsGo, resolveValue, lookupStr,
    fieldTypeValidate, ipValidate, FieldDesc.attrs, Value.isNone]

/-- C4 amended: for an instance with a clean cache in which some required
field has no value and no default, a strict `validate()` that returns at
all (does not raise, cf. the IPAddressField defect) returns false; and
`validate_partial()` — `validate(stop_on_required=False)` — returns true
provided every field resolves without raising and every field that does
have a value passes its choices check and its type validator. -/
theorem C4_required_missing_amended (γ : Schema) (d : DocState)
    (n0 : String) (f0 : FieldDesc)
    (hmem : (n0, f0) ∈ γ) (hreq : f0.attrs.required = true)
    (hunset : lookupStr d.store n0 = none) (hnodef : f0.attrs.default = none)
    (hcache : d.isValidCache = false) :
    (∀ b d2, validateDocument γ d true = .ok (b, d2) → b = false) ∧
    ((∀ n f, (n, f) ∈ γ → ∃ v, resolveValue f d.store n = .ok v ∧
        (v ≠ .vnone →
          (match f.attrs.choices with | some mem => mem v | none => true) = true ∧
          fieldTypeValidate f v = .ok true)) →
      validateDocument γ d false = .ok (true, d)) := by
  have hres0 : resolveValue f0 d.store n0 = .ok .vnone := by
    simp [resolveValue, hunset, hnodef]
  constructor
  · -- strict: the walk can never return `ok true`
    have hwalk : validateFieldsGo γ d.store true ≠ .ok true := by
      induction γ with
      | nil => cases hmem
      | cons p rest ih =>
        obtain ⟨n, f⟩ := p
        intro hok
        have hinv := validateFieldsGo_cons_ok_true n f rest d.store true hok
        rcases List.mem_cons.mp hmem with he | hm
        · obtain ⟨he1, he2⟩ := Prod.mk.injEq .. ▸ he
          injection he with he1 he2
          subst he1; subst he2
          have := hinv.1 hres0
          rw [hreq] at this
          simp at this
        · exact ih hm hinv.2
    intro b d2 h
    rw [validateDocument, hcache] at h
    simp only [Bool.and_false, Bool.false_eq_true, if_false] at h
    cases hw : validateFieldsGo γ d.store true with
    | error e => rw [hw] at h; exact absurd h (by simp)
    | ok bw =>
      cases bw with
      | true => exact absurd hw hwalk
      | false =>
        rw [hw] at h
        simp at h
        exact h.1
  · -- partial: the walk succeeds under the provision
    intro hprov
    have hwalk : validateFieldsGo γ d.store false = .ok true := by
      clear hmem
      induction γ with
      | nil => simp [validateFieldsGo]
      | cons p rest ih =>
        obtain ⟨n, f⟩ := p
        obtain ⟨v, hres, hpass⟩ := hprov n f (List.mem_cons_self (n, f) rest)
        have htail : validateFieldsGo rest d.store false = .ok true :=
          ih (fun n2 f2 hm2 => hprov n2 f2 (List.mem_cons_of_mem _ hm2))
        by_cases hvn : v = Value.vnone
        · subst hvn
          rw [validateFieldsGo_cons_vnone_skip n f rest d.store false hres (by simp)]
          exact htail
        · obtain ⟨hch, htv⟩ := hpass hvn
          rw [validateFieldsGo_cons_pass n f rest d.store false v hres hvn hch htv]
          exact htail
    rw [validateDocument]
    simp [hwalk]

/-- Witness for C4 amended: schema `{n : integer(required)}` with an
empty fresh instance. -/
theorem C4_required_missing_amended_witness :
    ((("n" : String), FieldDesc.intF ⟨none, true, none⟩)
        ∈ ([("n", FieldDesc.intF ⟨none, true, none⟩)] : Schema)) ∧
    (∀ b d2, validateDocument [("n", .intF ⟨none, true, none⟩)] initDocState true
        = .ok (b, d2) → b = false) ∧
    validateDocument [("n", .intF ⟨none, true, none⟩)] initDocState false
      = .ok (true, initDocState) := by
  have h := C4_required_missing_amended [("n", .intF ⟨none, true, none⟩)] initDocState
    "n" (.intF ⟨none, true, none⟩) (by simp) rfl rfl rfl rfl
  refine ⟨by simp, h.1, h.2 ?_⟩
  intro n f hm
  simp only [List.mem_singleton] at hm
  injection hm with h1 h2
  subst h1; subst h2
  exact ⟨.vnone, by simp [resolveValue, initDocState, lookupStr, FieldDesc.attrs],
    fun hv => absurd rfl hv⟩

namespace Dico

/-- Does exporting this field serialize embedded documents into raw
mappings?  Exactly the three cases in which `add_view` installs a
transforming `do` action: an embedded field, a list of embedded documents,
a mapping with embedded values. -/
def convertsF : FieldDesc → Bool
  | .embF _ _ _ => true
  | .listF sub _ _ _ => sub.isEmb
  | .mapF _ vs _ => vs.isEmb
  | _ => false

/-- `field.default` resolves to `None` (either no default or the literal
`None`, indistinguishable in Python). -/
def defaultNoneIsh (f : FieldDesc) : Bool :=
  match f.attrs.default with
  | none => true
  | some .vnone => true
  | some _ => false

/-- A duplicate-free list of keys (`_fields` is a Python dict). -/
def nodupStr : List String → Bool
  | [] => true
  | x :: xs => !(xs.contains x) && nodupStr xs

mutual

/-- Structural well-formedness of a field descriptor, a fact that holds
for every document class built through the public API: every field table
— hereditarily, the one of every embedded class — is a Python dict, so it
has no duplicate field names.  The schema of an embedded class must
additionally satisfy `wfInnerGo`, because a nested `to_N` export
re-validates that schema. -/
def wfField : FieldDesc → Bool
  | .listF sub _ _ _ => wfField sub
  | .mapF ks vs _ => wfField ks && wfField vs
  | .embF _ γ _ => nodupStr (γ.map Prod.fst) && wfInnerGo γ
  | _ => true
termination_by f => fdSize f
decreasing_by all_goals (simp [fdSize, schemaSize]; try omega)

/-- Condition on the fields of an embedded class — a schema that nested
`to_N` exports re-validate (the generated callers run `to_N` with its
default `validate=True`): a field of such a schema whose value the
export/import pipeline converts (an embedded field, a list of embedded
documents, a mapping with embedded values) must carry no `choices`
sequence.  This is not guaranteed by the API (`BaseField.__init__`
accepts `choices` everywhere); it is a hypothesis of the amended
round-trip claim: a reconstructed document is a fresh object, so Python's
`in` test against a `choices` sequence cannot be preserved across the
round trip.  On a non-converting field `choices` is unrestricted, and so
is `choices` on every top-level field, because the outer
`to_N(validate=False)` never re-checks it. -/
def wfInnerGo : Schema → Bool
  | [] => true
  | (_, f) :: rest =>
      wfField f && (!(convertsF f) || f.attrs.choices.isNone) && wfInnerGo rest
termination_by γ => schemaSize γ
decreasing_by all_goals (simp [fdSize, schemaSize]; try omega)

end

/-- Well-formedness of an embedded class schema (see `wfInnerGo`). -/
def wfSchema (γ : Schema) : Bool :=
  nodupStr (γ.map Prod.fst) && wfInnerGo γ

/-- What the round trip asks of the fields of the top-level table: each
descriptor structurally well-formed (`wfField`), with no condition on its
own `choices`. -/
def wfTopGo : Schema → Bool
  | [] => true
  | (_, f) :: rest => wfField f && wfTopGo rest

/-- The top-level table of a document class: a dict of structurally
well-formed fields. -/
def wfDoc (γ : Schema) : Bool :=
  nodupStr (γ.map Prod.fst) && wfTopGo γ

mutual

/-- No-shadow condition on the values of an instance: every field whose
resolved value is `None` has a `None` default (a stored `None` must not
shadow a non-`None` default, or the re-imported instance would resolve the
default where the original resolved `None`), hereditarily through embedded
documents, lists and mappings. -/
def noShadowV : FieldDesc → Value → Bool
  | .embF _ γsub _, .vdoc _ stv => noShadowS γsub stv
  | .listF sub _ _ _, .vlist xs => noShadowL sub xs
  | .mapF _ vs _, .vdict prs => noShadowM vs prs
  | _, _ => true
termination_by f _ => (fdSize f, 0)
decreasing_by all_goals (simp [fdSize, schemaSize]; try omega)

def noShadowL : FieldDesc → List Value → Bool
  | _, [] => true
  | sub, x :: xs => noShadowV sub x && noShadowL sub xs
termination_by sub xs => (fdSize sub, xs.length + 1)
decreasing_by all_goals (simp [fdSize, schemaSize]; try omega)

def noShadowM : FieldDesc → List (Value × Value) → Bool
  | _, [] => true
  | vs, (_, v) :: rest => noShadowV vs v && noShadowM vs rest
termination_by vs prs => (fdSize vs, prs.length + 1)
decreasing_by all_goals (simp [fdSize, schemaSize]; try omega)

def noShadowS : Schema → Store → Bool
  | [], _ => true
  | (n, f) :: rest, st =>
      (match resolveValue f st n with
       | .ok v => if v.isNone then defaultNoneIsh f else noShadowV f v
       | .error _ => false) && noShadowS rest st
termination_by γ _ => (schemaSize γ, 2)
decreasing_by all_goals (simp [fdSize, schemaSize]; try omega)

end

/-- A validator never accepts `None` (each `_validate` opens with an
isinstance check that `None` fails, and `inet_pton` raises on it). -/
theorem fieldTypeValidate_ok_not_none (f : FieldDesc)
    (h : fieldTypeValidate f .vnone = .ok true) : False := by
  cases f <;> simp [fieldTypeValidate, integerValidate, booleanValidate,
    floatValidate, datetimeValidate, stringValidate, ipValidate] at h

theorem listAllValidate_cons_iff (sub : FieldDesc) (x : Value) (xs : List Value) :
    listAllValidate sub (x :: xs) = .ok true ↔
      fieldTypeValidate sub x = .ok true ∧ listAllValidate sub xs = .ok true := by
  cases hx : fieldTypeValidate sub x with
  | error e => simp [listAllValidate, hx]
  | ok b => cases b <;> simp [listAllValidate, hx]

theorem mapAllValidate_cons_iff (ks vs : FieldDesc) (k v : Value)
    (prs : List (Value × Value)) :
    mapAllValidate ks vs ((k, v) :: prs) = .ok true ↔
      fieldTypeValidate ks k = .ok true ∧ fieldTypeValidate vs v = .ok true ∧
        mapAllValidate ks vs prs = .ok true := by
  cases hk : fieldTypeValidate ks k with
  | error e => simp [mapAllValidate, hk]
  | ok bk =>
    cases bk with
    | false => simp [mapAllValidate, hk]
    | true =>
      cases hv : fieldTypeValidate vs v with
      | error e => simp [mapAllValidate, hk, hv]
      | ok bv => cases bv <;> simp [mapAllValidate, hk, hv]

end Dico

namespace Dico

/- Inversion of the composite validators on accepted values. -/

theorem fieldTypeValidate_listF_ok (sub : FieldDesc) (mx mn : Option Int)
    (a : FieldAttrs) (v : Value)
    (h : fieldTypeValidate (.listF sub mx mn a) v = .ok true) :
    ∃ xs, v = .vlist xs ∧ overMax (xs.length : Int) mx = false ∧
      underMin (xs.length : Int) mn = false ∧ listAllValidate sub xs = .ok true := by
  cases v <;> simp [fieldTypeValidate] at h
  case vlist xs =>
    revert h
    split
    · intro h; simp at h
    · split
      · intro h; simp at h
      · intro h
        exact ⟨xs, rfl, by simp_all, by simp_all, h⟩

theorem fieldTypeValidate_mapF_ok (ks vs : FieldDesc) (a : FieldAttrs) (v : Value)
    (h : fieldTypeValidate (.mapF ks vs a) v = .ok true) :
    ∃ prs, v = .vdict prs ∧ mapAllValidate ks vs prs = .ok true := by
  cases v <;> simp [fieldTypeValidate] at h
  case vdict prs => exact ⟨prs, rfl, h⟩

theorem fieldTypeValidate_embF_ok (cls : String) (γ : Schema) (a : FieldAttrs)
    (v : Value) (h : fieldTypeValidate (.embF cls γ a) v = .ok true) :
    ∃ stv, v = .vdoc cls stv ∧ validateFieldsGo γ stv true = .ok true := by
  cases v <;> simp [fieldTypeValidate] at h
  case vdoc c stv =>
    split at h
    next hcc => subst hcc; exact ⟨stv, rfl, h⟩
    next => simp at h

/-- On a value its validator accepts, `_prepare` is the identity: a valid
embedded value is already a document (not a raw dict), so
`EmbeddedDocumentField._prepare` passes it through, and the list/mapping
`_prepare` walks reduce to pointwise passthroughs. -/
theorem prepareValue_id :
    ∀ (f : FieldDesc) (v : Value), fieldTypeValidate f v = .ok true →
      prepareValue f v = .ok v := by
  suffices H : ∀ (N : ℕ) (f : FieldDesc), fdSize f ≤ N →
      ∀ v, fieldTypeValidate f v = .ok true → prepareValue f v = .ok v by
    intro f v h
    exact H (fdSize f) f le_rfl v h
  intro N
  induction N using Nat.strong_induction_on with
  | _ N ih =>
  intro f hf v h
  cases f with
  | intF a => simp [prepareValue]
  | boolF a => simp [prepareValue]
  | floatF a => simp [prepareValue]
  | datetimeF a => simp [prepareValue]
  | strF r mx mn a => simp [prepareValue]
  | ipF a => simp [prepareValue]
  | embF cls γ a =>
    obtain ⟨stv, rfl, hw⟩ := fieldTypeValidate_embF_ok cls γ a v h
    simp [prepareValue]
  | listF sub mx mn a =>
    obtain ⟨xs, rfl, hmx, hmn, hall⟩ := fieldTypeValidate_listF_ok sub mx mn a v h
    have hsub : ∀ x, fieldTypeValidate sub x = .ok true → prepareValue sub x = .ok x := by
      intro x hx
      have hlt : fdSize sub < N := lt_of_lt_of_le (by simp [fdSize]; try omega) hf
      exact ih (fdSize sub) hlt sub le_rfl x hx
    have hgo : ∀ ys, listAllValidate sub ys = .ok true → prepareListGo sub ys = .ok ys := by
      intro ys
      induction ys with
      | nil => intro _; simp [prepareListGo]
      | cons x rest ihx =>
        intro hall2
        rw [listAllValidate_cons_iff] at hall2
        simp [prepareListGo, hsub x hall2.1, ihx hall2.2]
    by_cases hp : sub.hasPrepare = true <;> simp [prepareValue, hp, hgo xs hall]
  | mapF ks vs a =>
    obtain ⟨prs, rfl, hall⟩ := fieldTypeValidate_mapF_ok ks vs a v h
    have hks : ∀ x, fieldTypeValidate ks x = .ok true → prepareValue ks x = .ok x := by
      intro x hx
      have hlt : fdSize ks < N :=
        lt_of_lt_of_le (by simp [fdSize]; try (have hvp := fdSize_pos vs; omega)) hf
      exact ih (fdSize ks) hlt ks le_rfl x hx
    have hvs : ∀ x, fieldTypeValidate vs x = .ok true → prepareValue vs x = .ok x := by
      intro x hx
      have hlt : fdSize vs < N :=
        lt_of_lt_of_le (by simp [fdSize]) hf
      exact ih (fdSize vs) hlt vs le_rfl x hx
    have hgo : ∀ qs, mapAllValidate ks vs qs = .ok true → prepareMapGo ks vs qs = .ok qs := by
      intro qs
      induction qs with
      | nil => intro _; simp [prepareMapGo]
      | cons p rest ihp =>
        intro hall2
        obtain ⟨k, v⟩ := p
        rw [mapAllValidate_cons_iff] at hall2
        by_cases hkp : ks.hasPrepare = true <;> by_cases hvp : vs.hasPrepare = true <;>
          simp [prepareMapGo, hkp, hvp, hks k hall2.1, hvs v hall2.2.1, ihp hall2.2.2]
    simp [prepareValue, hgo prs hall]

end Dico

namespace Dico

/-- A field whose export is not one of the three document-serializing
cases exports its value raw. -/
theorem exportField_raw (f : FieldDesc) (v : Value) (hc : convertsF f = false) :
    exportField f v = .ok v := by
  cases f with
  | embF cls γ a => simp [convertsF] at hc
  | listF sub mx mn a =>
    simp only [convertsF] at hc
    cases v <;> simp [exportField, hc]
  | mapF ks vs a =>
    simp only [convertsF] at hc
    cases v <;> simp [exportField, hc]
  | intF a => simp [exportField]
  | boolF a => simp [exportField]
  | floatF a => simp [exportField]
  | datetimeF a => simp [exportField]
  | strF r mx mn a => simp [exportField]
  | ipF a => simp [exportField]

/-- Keyword expansion of a view output (string keys by construction). -/
theorem asKwargs_map (out : List (String × Value)) :
    asKwargs (out.map (fun p => (Value.vstr p.1, p.2))) = .ok out := by
  induction out with
  | nil => rfl
  | cons p rest ih =>
    obtain ⟨k, v⟩ := p
    simp [asKwargs, ih]

/- Step lemmas unfolding one field of the full-table view walk. -/

theorem exportGo_cons_resolve_err (n : String) (f : FieldDesc) (rest : Schema)
    (st : Store) (e : PyErr) (hr : resolveValue f st n = .error e) :
    exportGo ((n, f) :: rest) st = .error e := by
  simp [exportGo, hr]

theorem exportGo_cons_skip (n : String) (f : FieldDesc) (rest : Schema)
    (st : Store) (hr : resolveValue f st n = .ok .vnone) :
    exportGo ((n, f) :: rest) st = exportGo rest st := by
  simp [exportGo, hr, Value.isNone]

theorem exportGo_cons_export_err (n : String) (f : FieldDesc) (rest : Schema)
    (st : Store) (v : Value) (e : PyErr) (hr : resolveValue f st n = .ok v)
    (hv0 : v ≠ .vnone) (he : exportField f v = .error e) :
    exportGo ((n, f) :: rest) st = .error e := by
  simp [exportGo, hr, Value.isNone_eq_false v hv0, he]

theorem exportGo_cons_export_ok (n : String) (f : FieldDesc) (rest : Schema)
    (st : Store) (v ev : Value) (hr : resolveValue f st n = .ok v)
    (hv0 : v ≠ .vnone) (he : exportField f v = .ok ev) :
    exportGo ((n, f) :: rest) st =
      Except.map (fun tail => (n, ev) :: tail) (exportGo rest st) := by
  cases ht : exportGo rest st <;>
    simp [exportGo, hr, Value.isNone_eq_false v hv0, he, ht, Except.map]

/-- The full-table view walk only outputs declared keys. -/
theorem exportGo_keys (γ : Schema) :
    ∀ (st : Store) (out : List (String × Value)) (k : String),
      exportGo γ st = .ok out → ¬ k ∈ γ.map Prod.fst → lookupStr out k = none := by
  induction γ with
  | nil =>
    intro st out k h _
    simp [exportGo] at h
    subst h
    rfl
  | cons p rest ih =>
    obtain ⟨n, f⟩ := p
    intro st out k h hk
    simp only [List.map_cons, List.mem_cons] at hk
    push_neg at hk
    cases hr : resolveValue f st n with
    | error e =>
      rw [exportGo_cons_resolve_err n f rest st e hr] at h
      exact absurd h (by simp)
    | ok v =>
      by_cases hv0 : v = Value.vnone
      · subst hv0
        rw [exportGo_cons_skip n f rest st hr] at h
        exact ih st out k h hk.2
      · cases he : exportField f v with
        | error e =>
          rw [exportGo_cons_export_err n f rest st v e hr hv0 he] at h
          exact absurd h (by simp)
        | ok ev =>
          rw [exportGo_cons_export_ok n f rest st v ev hr hv0 he] at h
          cases ht : exportGo rest st with
          | error e => rw [ht] at h; exact absurd h (by simp [Except.map])
          | ok tail =>
            rw [ht] at h
            simp only [Except.map, Except.ok.injEq] at h
            subst h
            simpa [lookupStr, Ne.symm hk.1] using ih st tail k ht hk.2

/-- Keys outside the resolved field list are untouched by the update. -/
theorem updateGo_keys_untouched (fields : PipeFields) (changed : Bool)
    (d : DocState) (data : List (String × Value)) (k : String)
    (hk : ¬ k ∈ fields.map Prod.fst) :
    ∀ d2, updateGo fields changed d data = .ok d2 →
      lookupStr d2.store k = lookupStr d.store k ∧ (k ∈ d2.modified ↔ k ∈ d.modified) := by
  induction fields generalizing d with
  | nil =>
    intro d2 h
    simp [updateGo] at h
    subst h
    exact ⟨rfl, Iff.rfl⟩
  | cons p rest ih =>
    obtain ⟨key, f?⟩ := p
    simp only [List.map_cons, List.mem_cons] at hk
    push_neg at hk
    have hkey : k ≠ key := hk.1
    have hkr := hk.2
    intro d2 h
    cases hv : lookupStr data key with
    | none =>
      rw [updateGo_cons_skip key f? rest changed d data (Or.inl hv)] at h
      exact ih d hkr d2 h
    | some v =>
      by_cases hv0 : v = Value.vnone
      · subst hv0
        rw [updateGo_cons_skip key f? rest changed d data (Or.inr hv)] at h
        exact ih d hkr d2 h
      · have hstep : ∀ d1 : DocState,
            updateGo rest changed (if changed then changedF key d1 else d1) data = .ok d2 →
            lookupStr d2.store k = lookupStr d1.store k ∧
              (k ∈ d2.modified ↔ k ∈ d1.modified) := by
          intro d1 h1
          by_cases hc : changed
          · rw [if_pos hc] at h1
            have := ih _ hkr d2 h1
            simpa [changedF, mem_insertStr, hkey] using this
          · rw [if_neg hc] at h1
            exact ih _ hkr d2 h1
        cases f? with
        | some f =>
          by_cases hprep : f.hasPrepare = true
          · cases hp : prepareValue f v with
            | error e =>
              rw [updateGo_cons_some_prep_err key f rest changed d data v e hprep hv hv0 hp] at h
              exact absurd h (by simp)
            | ok v1 =>
              rw [updateGo_cons_some_prep_ok key f rest changed d data v v1 hprep hv hv0 hp] at h
              have := hstep _ h
              simpa [lookupStr_setStore_ne _ _ _ _ hkey] using this
          · have hprep2 : f.hasPrepare = false := by
              revert hprep; cases f.hasPrepare <;> simp
            rw [updateGo_cons_some_noprep key f rest changed d data v hprep2 hv hv0] at h
            have := hstep _ h
            simpa [lookupStr_setStore_ne _ _ _ _ hkey] using this
        | none =>
          rw [updateGo_cons_none_val key rest changed d data v hv hv0] at h
          have := ih _ hkr d2 h
          simpa [lookupStr_setStore_ne _ _ _ _ hkey] using this

/-- In a duplicate-free association list, membership determines lookup. -/
theorem lookupStr_of_mem_nodup {α : Type} (l : List (String × α))
    (hnd : nodupStr (l.map Prod.fst) = true) (n : String) (x : α)
    (hm : (n, x) ∈ l) : lookupStr l n = some x := by
  induction l with
  | nil => cases hm
  | cons p rest ih =>
    obtain ⟨k, y⟩ := p
    simp only [List.map_cons, nodupStr, Bool.and_eq_true, Bool.not_eq_true] at hnd
    rcases List.mem_cons.mp hm with he | hm2
    · injection he with he1 he2
      subst he1; subst he2
      simp [lookupStr]
    · have hkn : k ≠ n := by
        intro hkn
        subst hkn
        have : k ∈ rest.map Prod.fst := by
          exact List.mem_map.mpr ⟨(k, x), hm2, rfl⟩
        have hc : (rest.map Prod.fst).contains k = true := List.elem_iff.mpr this
        rw [hc] at hnd
        simp at hnd
      simp only [lookupStr, hkn, if_false]
      exact ih hnd.2 hm2

/-- Over a duplicate-free schema, the generated `to_N` key walk over the
table's own keys coincides with the full-table pair walk used by nested
exports. -/
theorem topViewGo_eq_exportGo (γ γ2 : Schema) (st : Store)
    (h : ∀ n f, (n, f) ∈ γ2 → lookupStr γ n = some f) :
    topViewGo γ st (γ2.map Prod.fst) = exportGo γ2 st := by
  induction γ2 with
  | nil => simp [topViewGo, exportGo]
  | cons p rest ih =>
    obtain ⟨n, f⟩ := p
    have hg : lookupStr γ n = some f := h n f (List.mem_cons_self (n, f) rest)
    have htail : topViewGo γ st (rest.map Prod.fst) = exportGo rest st :=
      ih (fun n2 f2 hm2 => h n2 f2 (List.mem_cons_of_mem _ hm2))
    cases hr : resolveValue f st n with
    | error e =>
      rw [List.map_cons, topViewGo_cons_resolve_err γ st n (rest.map Prod.fst) f e hg hr,
        exportGo_cons_resolve_err n f rest st e hr]
    | ok v =>
      by_cases hv0 : v = Value.vnone
      · subst hv0
        rw [List.map_cons, topViewGo_cons_skip γ st n (rest.map Prod.fst) f hg hr,
          exportGo_cons_skip n f rest st hr, htail]
      · cases he : exportField f v with
        | error e =>
          rw [List.map_cons, topViewGo_cons_export_err γ st n (rest.map Prod.fst) f v e hg hr hv0 he,
            exportGo_cons_export_err n f rest st v e hr hv0 he]
        | ok ev =>
          rw [List.map_cons, topViewGo_cons_export_ok γ st n (rest.map Prod.fst) f v ev hg hr hv0 he,
            exportGo_cons_export_ok n f rest st v ev hr hv0 he, htail]

/-- Inversion of one successful walk step on a field resolving to a
present value: the choices check and the type validator both passed, and
the tail walk succeeded. -/
theorem validateFieldsGo_cons_ok_val (n : String) (f : FieldDesc) (rest : Schema)
    (st : Store) (stop : Bool) (v : Value)
    (hr : resolveValue f st n = .ok v) (hvn : v ≠ .vnone)
    (h : validateFieldsGo ((n, f) :: rest) st stop = .ok true) :
    (match f.attrs.choices with | some mem => mem v | none => true) = true ∧
      fieldTypeValidate f v = .ok true ∧ validateFieldsGo rest st stop = .ok true := by
  revert h
  simp only [validateFieldsGo, hr, exceptBind_ok, Value.isNone_eq_false v hvn,
    Bool.false_eq_true, if_false]
  cases hch : (match f.attrs.choices with | some mem => mem v | none => true) with
  | false => intro h; simp [hch] at h
  | true =>
    simp only [hch, if_true]
    cases htv : fieldTypeValidate f v with
    | error e => intro h; simp at h
    | ok b =>
      cases b with
      | false => intro h; simp at h
      | true => intro h; exact ⟨trivial, rfl, by simpa using h⟩

end Dico

namespace Dico

theorem Value.isNone_false_of_valid (f : FieldDesc) (v : Value)
    (h : fieldTypeValidate f v = .ok true) : v.isNone = false := by
  cases v with
  | vnone => exact absurd h (fun hc => fieldTypeValidate_ok_not_none f hc)
  | _ => rfl

theorem prepareValue_noprep (f : FieldDesc) (v : Value)
    (hp : f.hasPrepare = false) : prepareValue f v = .ok v := by
  cases f <;> simp [FieldDesc.hasPrepare] at hp ⊢ <;> simp [prepareValue]

theorem resolveValue_default_noneIsh (f : FieldDesc) (st : Store) (n : String)
    (hl : lookupStr st n = none) (hd : defaultNoneIsh f = true) :
    resolveValue f st n = .ok .vnone := by
  rw [resolveValue, hl]
  revert hd
  rw [defaultNoneIsh]
  cases hdf : f.attrs.default with
  | none => intro _; rfl
  | some d => cases d <;> intro hd <;> first | rfl | simp at hd

theorem setStore_cons_ne (n key : String) (w v : Value) (σ : Store)
    (h : key ≠ n) : setStore ((n, w) :: σ) key v = (n, w) :: setStore σ key v := by
  simp [setStore, Ne.symm h]

theorem resolveValue_store_cons_ne (f : FieldDesc) (n n2 : String) (w : Value)
    (σ : Store) (h : n2 ≠ n) :
    resolveValue f ((n, w) :: σ) n2 = resolveValue f σ n2 := by
  rw [resolveValue, resolveValue]
  simp [lookupStr, Ne.symm h]

/-- The data mapping only enters the update through key lookups. -/
theorem updateGo_data_congr (fields : PipeFields) (changed : Bool) (d : DocState)
    (data1 data2 : List (String × Value))
    (h : ∀ key, key ∈ fields.map Prod.fst → lookupStr data1 key = lookupStr data2 key) :
    updateGo fields changed d data1 = updateGo fields changed d data2 := by
  induction fields generalizing d with
  | nil => simp [updateGo]
  | cons p rest ih =>
    obtain ⟨key, f?⟩ := p
    have hk : lookupStr data1 key = lookupStr data2 key := by
      exact h key (by simp)
    have hrest : ∀ k2, k2 ∈ rest.map Prod.fst → lookupStr data1 k2 = lookupStr data2 k2 := by
      intro k2 hm
      exact h k2 (by simp [hm])
    cases hv : lookupStr data1 key with
    | none =>
      rw [updateGo_cons_skip key f? rest changed d data1 (Or.inl hv),
        updateGo_cons_skip key f? rest changed d data2 (Or.inl (hk.symm.trans hv))]
      exact ih d hrest
    | some v =>
      by_cases hv0 : v = Value.vnone
      · subst hv0
        rw [updateGo_cons_skip key f? rest changed d data1 (Or.inr hv),
          updateGo_cons_skip key f? rest changed d data2 (Or.inr (hk.symm.trans hv))]
        exact ih d hrest
      · have hv2 : lookupStr data2 key = some v := hk.symm.trans hv
        cases f? with
        | some f =>
          by_cases hprep : f.hasPrepare = true
          · cases hp : prepareValue f v with
            | error e =>
              rw [updateGo_cons_some_prep_err key f rest changed d data1 v e hprep hv hv0 hp,
                updateGo_cons_some_prep_err key f rest changed d data2 v e hprep hv2 hv0 hp]
            | ok v1 =>
              rw [updateGo_cons_some_prep_ok key f rest changed d data1 v v1 hprep hv hv0 hp,
                updateGo_cons_some_prep_ok key f rest changed d data2 v v1 hprep hv2 hv0 hp]
              exact ih _ hrest
          · have hprep2 : f.hasPrepare = false := by
              revert hprep; cases f.hasPrepare <;> simp
            rw [updateGo_cons_some_noprep key f rest changed d data1 v hprep2 hv hv0,
              updateGo_cons_some_noprep key f rest changed d data2 v hprep2 hv2 hv0]
            exact ih _ hrest
        | none =>
          rw [updateGo_cons_none_val key rest changed d data1 v hv hv0,
            updateGo_cons_none_val key rest changed d data2 v hv2 hv0]
          exact ih _ hrest

/-- Frame: an extra binding for a key outside the resolved field list rides
along unchanged at the head of the store. -/
theorem updateGo_store_frame (fields : PipeFields) (changed : Bool)
    (n : String) (w : Value) (σ : Store) (mods : List String) (cache : Bool)
    (data : List (String × Value)) (hn : ¬ n ∈ fields.map Prod.fst) :
    updateGo fields changed ⟨(n, w) :: σ, mods, cache⟩ data =
      Except.map (fun d2 => ⟨(n, w) :: d2.store, d2.modified, d2.isValidCache⟩)
        (updateGo fields changed ⟨σ, mods, cache⟩ data) := by
  induction fields generalizing σ mods cache with
  | nil => simp [updateGo, Except.map]
  | cons p rest ih =>
    obtain ⟨key, f?⟩ := p
    simp only [List.map_cons, List.mem_cons] at hn
    push_neg at hn
    have hkey : key ≠ n := Ne.symm hn.1
    have hrest := hn.2
    cases hv : lookupStr data key with
    | none =>
      rw [updateGo_cons_skip key f? rest changed _ data (Or.inl hv),
        updateGo_cons_skip key f? rest changed _ data (Or.inl hv)]
      exact ih σ mods cache hrest
    | some v =>
      by_cases hv0 : v = Value.vnone
      · subst hv0
        rw [updateGo_cons_skip key f? rest changed _ data (Or.inr hv),
          updateGo_cons_skip key f? rest changed _ data (Or.inr hv)]
        exact ih σ mods cache hrest
      · have hset : ∀ v1 : Value,
            setStore ((n, w) :: σ) key v1 = (n, w) :: setStore σ key v1 :=
          fun v1 => setStore_cons_ne n key w v1 σ hkey
        cases f? with
        | some f =>
          by_cases hprep : f.hasPrepare = true
          · cases hp : prepareValue f v with
            | error e =>
              rw [updateGo_cons_some_prep_err key f rest changed _ data v e hprep hv hv0 hp,
                updateGo_cons_some_prep_err key f rest changed _ data v e hprep hv hv0 hp]
              rfl
            | ok v1 =>
              rw [updateGo_cons_some_prep_ok key f rest changed _ data v v1 hprep hv hv0 hp,
                updateGo_cons_some_prep_ok key f rest changed _ data v v1 hprep hv hv0 hp]
              simp only [hset]
              by_cases hc : changed
              · rw [if_pos hc, if_pos hc]
                simp only [changedF]
                exact ih _ _ _ hrest
              · rw [if_neg hc, if_neg hc]
                exact ih _ _ _ hrest
          · have hprep2 : f.hasPrepare = false := by
              revert hprep; cases f.hasPrepare <;> simp
            rw [updateGo_cons_some_noprep key f rest changed _ data v hprep2 hv hv0,
              updateGo_cons_some_noprep key f rest changed _ data v hprep2 hv hv0]
            simp only [hset]
            by_cases hc : changed
            · rw [if_pos hc, if_pos hc]
              simp only [changedF]
              exact ih _ _ _ hrest
            · rw [if_neg hc, if_neg hc]
              exact ih _ _ _ hrest
        | none =>
          rw [updateGo_cons_none_val key rest changed _ data v hv hv0,
            updateGo_cons_none_val key rest changed _ data v hv hv0]
          simp only [hset]
          exact ih _ _ _ hrest

end Dico

namespace Dico

/- The three field walks read the store only through `getattr`
(`resolveValue`); stores resolving equally walk equally. -/

theorem validateFieldsGo_resolve_congr (γ2 : Schema) (st1 st2 : Store) (stop : Bool)
    (h : ∀ n f, (n, f) ∈ γ2 → resolveValue f st1 n = resolveValue f st2 n) :
    validateFieldsGo γ2 st1 stop = validateFieldsGo γ2 st2 stop := by
  induction γ2 with
  | nil => simp [validateFieldsGo]
  | cons p rest ih =>
    obtain ⟨n, f⟩ := p
    have hr := h n f (List.mem_cons_self (n, f) rest)
    have htail := ih (fun n2 f2 hm => h n2 f2 (List.mem_cons_of_mem _ hm))
    simp only [validateFieldsGo, hr, htail]

theorem exportGo_resolve_congr (γ2 : Schema) (st1 st2 : Store)
    (h : ∀ n f, (n, f) ∈ γ2 → resolveValue f st1 n = resolveValue f st2 n) :
    exportGo γ2 st1 = exportGo γ2 st2 := by
  induction γ2 with
  | nil => simp [exportGo]
  | cons p rest ih =>
    obtain ⟨n, f⟩ := p
    have hr := h n f (List.mem_cons_self (n, f) rest)
    have htail := ih (fun n2 f2 hm => h n2 f2 (List.mem_cons_of_mem _ hm))
    simp only [exportGo, hr, htail]

theorem noShadowS_resolve_congr (γ2 : Schema) (st1 st2 : Store)
    (h : ∀ n f, (n, f) ∈ γ2 → resolveValue f st1 n = resolveValue f st2 n) :
    noShadowS γ2 st1 = noShadowS γ2 st2 := by
  induction γ2 with
  | nil => simp [noShadowS]
  | cons p rest ih =>
    obtain ⟨n, f⟩ := p
    have hr := h n f (List.mem_cons_self (n, f) rest)
    have htail := ih (fun n2 f2 hm => h n2 f2 (List.mem_cons_of_mem _ hm))
    simp only [noShadowS, hr, htail]

/-- Resolution congruence for a store extended with a key outside the
walked schema. -/
theorem resolve_congr_cons_outside (γ2 : Schema) (n : String) (w : Value) (σ : Store)
    (hn : ¬ n ∈ γ2.map Prod.fst) :
    ∀ n2 f2, (n2, f2) ∈ γ2 → resolveValue f2 ((n, w) :: σ) n2 = resolveValue f2 σ n2 := by
  intro n2 f2 hm
  have hne : n2 ≠ n := by
    intro he
    subst he
    exact hn (List.mem_map.mpr ⟨(n2, f2), hm, rfl⟩)
  exact resolveValue_store_cons_ne f2 n n2 w σ hne

end Dico

namespace Dico

theorem Value.isNone_false_ne (v : Value) (h : v.isNone = false) : v ≠ .vnone := by
  intro he
  subst he
  simp [Value.isNone] at h

theorem noShadowV_simple (f : FieldDesc) (v : Value) (hp : f.hasPrepare = false) :
    noShadowV f v = true := by
  cases f <;> simp [FieldDesc.hasPrepare] at hp ⊢ <;> cases v <;> simp [noShadowV]

theorem ofSchemaFields_cons (n : String) (f : FieldDesc) (rest : Schema) :
    ofSchemaFields ((n, f) :: rest) = (n, some f) :: ofSchemaFields rest := rfl

theorem ofSchemaFields_keys (γ : Schema) :
    (ofSchemaFields γ).map Prod.fst = γ.map Prod.fst := by
  induction γ with
  | nil => rfl
  | cons p rest ih => obtain ⟨n, f⟩ := p; simp [ofSchemaFields] at ih ⊢; try exact ih

theorem prepareListGo_cons_ok (sub : FieldDesc) (x y : Value) (rest ys : List Value)
    (hx : prepareValue sub x = .ok y) (ht : prepareListGo sub rest = .ok ys) :
    prepareListGo sub (x :: rest) = .ok (y :: ys) := by
  simp [prepareListGo, hx, ht]

theorem exportListGo_cons_ok (sub : FieldDesc) (x y : Value) (rest ys : List Value)
    (hx : exportField sub x = .ok y) (ht : exportListGo sub rest = .ok ys) :
    exportListGo sub (x :: rest) = .ok (y :: ys) := by
  simp [exportListGo, hx, ht]

theorem prepareMapGo_cons_ok (ks vs : FieldDesc) (k v k1 v1 : Value)
    (rest tail : List (Value × Value))
    (hk : (if ks.hasPrepare then prepareValue ks k else .ok k) = .ok k1)
    (hv : (if vs.hasPrepare then prepareValue vs v else .ok v) = .ok v1)
    (ht : prepareMapGo ks vs rest = .ok tail) :
    prepareMapGo ks vs ((k, v) :: rest) = .ok ((k1, v1) :: tail) := by
  by_cases hkp : ks.hasPrepare = true <;> by_cases hvp : vs.hasPrepare = true <;>
    simp_all [prepareMapGo]

theorem exportMapGo_cons_ok (vs : FieldDesc) (k v ev : Value)
    (rest tail : List (Value × Value))
    (hv : exportField vs v = .ok ev) (ht : exportMapGo vs rest = .ok tail) :
    exportMapGo vs ((k, v) :: rest) = .ok ((k, ev) :: tail) := by
  simp [exportMapGo, hv, ht]

/-- Round-trip behaviour of one field's export/import/export cycle on an
accepted value (the per-field core of claim C1). -/
def RTfield (f : FieldDesc) : Prop :=
  ∀ v, wfField f = true → fieldTypeValidate f v = .ok true → noShadowV f v = true →
    ∃ ev, exportField f v = .ok ev ∧ ev.isNone = false ∧
      ∃ v1, (if f.hasPrepare then prepareValue f ev else .ok ev) = .ok v1 ∧
        fieldTypeValidate f v1 = .ok true ∧ noShadowV f v1 = true ∧
        exportField f v1 = .ok ev ∧
        (convertsF f = false → ev = v ∧ v1 = v)

/-- Round-trip behaviour of a whole document store under the full-table
export, re-import and re-export. -/
def RTdoc (γ : Schema) : Prop :=
  ∀ st, wfSchema γ = true → validateFieldsGo γ st true = .ok true →
    noShadowS γ st = true →
    ∃ out, exportGo γ st = .ok out ∧
      ∃ d1, updateGo (ofSchemaFields γ) false initDocState out = .ok d1 ∧
        validateFieldsGo γ d1.store true = .ok true ∧
        noShadowS γ d1.store = true ∧
        exportGo γ d1.store = .ok out

theorem RTfield_of_simple (f : FieldDesc) (hp : f.hasPrepare = false)
    (hcv : convertsF f = false) : RTfield f := by
  intro v hwf hval hsh
  refine ⟨v, exportField_raw f v hcv, Value.isNone_false_of_valid f v hval, v, ?_,
    hval, noShadowV_simple f v hp, exportField_raw f v hcv, fun _ => ⟨rfl, rfl⟩⟩
  rw [hp]
  simp

theorem RTlist (sub : FieldDesc) (hsub : RTfield sub) (hwf : wfField sub = true) :
    ∀ xs, listAllValidate sub xs = .ok true → noShadowL sub xs = true →
      ∃ evs, exportListGo sub xs = .ok evs ∧
        ∃ v1s, prepareListGo sub evs = .ok v1s ∧ v1s.length = xs.length ∧
          listAllValidate sub v1s = .ok true ∧ noShadowL sub v1s = true ∧
          exportListGo sub v1s = .ok evs := by
  intro xs
  induction xs with
  | nil =>
    intro _ _
    exact ⟨[], by simp [exportListGo], [], by simp [prepareListGo], rfl,
      by simp [listAllValidate], by simp [noShadowL], by simp [exportListGo]⟩
  | cons x rest ih =>
    intro hall hsh
    rw [listAllValidate_cons_iff] at hall
    simp only [noShadowL, Bool.and_eq_true] at hsh
    obtain ⟨ev, hev, hevn, v1, hprep1, hval1, hsh1, hexp1, _⟩ := hsub x hwf hall.1 hsh.1
    obtain ⟨evs, hevs, v1s, hprepS, hlen, hallS, hshS, hexpS⟩ := ih hall.2 hsh.2
    have hp1 : prepareValue sub ev = .ok v1 := by
      by_cases hp : sub.hasPrepare = true
      · rw [if_pos hp] at hprep1; exact hprep1
      · rw [if_neg hp] at hprep1
        injection hprep1 with hee
        subst hee
        exact prepareValue_noprep sub ev (by revert hp; cases sub.hasPrepare <;> simp)
    refine ⟨ev :: evs, exportListGo_cons_ok sub x ev rest evs hev hevs,
      v1 :: v1s, prepareListGo_cons_ok sub ev v1 evs v1s hp1 hprepS, by simp [hlen], ?_, ?_,
      exportListGo_cons_ok sub v1 ev v1s evs hexp1 hexpS⟩
    · rw [listAllValidate_cons_iff]; exact ⟨hval1, hallS⟩
    · simp [noShadowL, hsh1, hshS]

theorem RTmap (ks vs : FieldDesc) (hvs : RTfield vs) (hwfv : wfField vs = true) :
    ∀ prs, mapAllValidate ks vs prs = .ok true → noShadowM vs prs = true →
      ∃ eprs, exportMapGo vs prs = .ok eprs ∧
        ∃ prs1, prepareMapGo ks vs eprs = .ok prs1 ∧
          mapAllValidate ks vs prs1 = .ok true ∧ noShadowM vs prs1 = true ∧
          exportMapGo vs prs1 = .ok eprs := by
  intro prs
  induction prs with
  | nil =>
    intro _ _
    exact ⟨[], by simp [exportMapGo], [], by simp [prepareMapGo],
      by simp [mapAllValidate], by simp [noShadowM], by simp [exportMapGo]⟩
  | cons p rest ih =>
    obtain ⟨k, v⟩ := p
    intro hall hsh
    rw [mapAllValidate_cons_iff] at hall
    simp only [noShadowM, Bool.and_eq_true] at hsh
    obtain ⟨hkOK, hvOK, hrestOK⟩ := hall
    obtain ⟨ev, hev, hevn, v1, hprep1, hval1, hsh1, hexp1, _⟩ := hvs v hwfv hvOK hsh.1
    obtain ⟨eprs, heprs, prs1, hprepS, hallS, hshS, hexpS⟩ := ih hrestOK hsh.2
    have hkk : (if ks.hasPrepare then prepareValue ks k else .ok k) = .ok k := by
      split
      · exact prepareValue_id ks k hkOK
      · rfl
    refine ⟨(k, ev) :: eprs, exportMapGo_cons_ok vs k v ev rest eprs hev heprs,
      (k, v1) :: prs1, prepareMapGo_cons_ok ks vs k ev k v1 eprs prs1 hkk hprep1 hprepS,
      ?_, ?_, exportMapGo_cons_ok vs k v1 ev prs1 eprs hexp1 hexpS⟩
    · rw [mapAllValidate_cons_iff]; exact ⟨hkOK, hval1, hallS⟩
    · simp [noShadowM, hsh1, hshS]

end Dico

namespace Dico

set_option maxHeartbeats 1000000 in
/-- The mutual induction behind claim C1: every field and every schema
satisfies the round-trip property, by strong induction on descriptor
size. -/
theorem roundTrip_main : ∀ N : ℕ,
    (∀ f, fdSize f ≤ N → RTfield f) ∧ (∀ γ, schemaSize γ ≤ N → RTdoc γ) := by
  intro N
  induction N using Nat.strong_induction_on with
  | _ N ih =>
  have ihF : ∀ M, M < N → ∀ f, fdSize f ≤ M → RTfield f := fun M hM => (ih M hM).1
  have ihD : ∀ M, M < N → ∀ γ, schemaSize γ ≤ M → RTdoc γ := fun M hM => (ih M hM).2
  constructor
  · -- fields
    intro f hfN
    cases f with
    | intF a => exact RTfield_of_simple _ rfl rfl
    | boolF a => exact RTfield_of_simple _ rfl rfl
    | floatF a => exact RTfield_of_simple _ rfl rfl
    | datetimeF a => exact RTfield_of_simple _ rfl rfl
    | strF r mx mn a => exact RTfield_of_simple _ rfl rfl
    | ipF a => exact RTfield_of_simple _ rfl rfl
    | embF cls γsub a =>
      intro v hwf hval hsh
      obtain ⟨stv, rfl, hw⟩ := fieldTypeValidate_embF_ok cls γsub a v hval
      have hwfs : wfSchema γsub = true := by
        simp only [wfField, Bool.and_eq_true] at hwf
        simp [wfSchema, hwf.1, hwf.2]
      have hshS : noShadowS γsub stv = true := by simpa [noShadowV] using hsh
      have hRT : RTdoc γsub :=
        ihD (schemaSize γsub) (lt_of_lt_of_le (by simp only [fdSize]; omega) hfN) γsub le_rfl
      obtain ⟨out, hout, d1, hupd, hval1, hsh1, hout1⟩ := hRT stv hwfs hw hshS
      refine ⟨.vdict (out.map fun p => (.vstr p.1, p.2)), ?_, rfl,
        .vdoc cls d1.store, ?_, ?_, ?_, ?_, ?_⟩
      · simp [exportField, hw, hout]
      · simp [FieldDesc.hasPrepare, prepareValue, asKwargs_map, hupd]
      · simp [fieldTypeValidate, hval1]
      · simpa [noShadowV] using hsh1
      · simp [exportField, hval1, hout1]
      · intro hcv; simp [convertsF] at hcv
    | listF sub mx mn a =>
      intro v hwf hval hsh
      obtain ⟨xs, rfl, hmx, hmn, hall⟩ := fieldTypeValidate_listF_ok sub mx mn a v hval
      by_cases hse : sub.isEmb = true
      · have hwfsub : wfField sub = true := by
          simpa [wfField] using hwf
        have hRTsub : RTfield sub :=
          ihF (fdSize sub) (lt_of_lt_of_le (by simp only [fdSize]; omega) hfN) sub le_rfl
        have hshL : noShadowL sub xs = true := by simpa [noShadowV] using hsh
        obtain ⟨evs, hevs, v1s, hprepS, hlen, hallS, hshS, hexpS⟩ :=
          RTlist sub hRTsub hwfsub xs hall hshL
        have hsubPrep : sub.hasPrepare = true := by
          cases sub <;> simp_all [FieldDesc.isEmb, FieldDesc.hasPrepare]
        refine ⟨.vlist evs, ?_, rfl, .vlist v1s, ?_, ?_, ?_, ?_, ?_⟩
        · simp [exportField, hse, hevs]
        · have hpv : prepareValue (.listF sub mx mn a) (.vlist evs) = .ok (.vlist v1s) := by
            simp [prepareValue, hsubPrep, hprepS]
          simp [FieldDesc.hasPrepare, hpv]
        · simp [fieldTypeValidate, hlen, hmx, hmn, hallS]
        · simpa [noShadowV] using hshS
        · simp [exportField, hse, hexpS]
        · intro hcv
          have hcv2 : FieldDesc.isEmb sub = false := hcv
          rw [hse] at hcv2
          cases hcv2
      · have hse2 : sub.isEmb = false := by revert hse; cases sub.isEmb <;> simp
        have hcv : convertsF (.listF sub mx mn a) = false := by simp [convertsF, hse2]
        refine ⟨.vlist xs, exportField_raw _ _ hcv, rfl, .vlist xs, ?_, hval, hsh,
          exportField_raw _ _ hcv, fun _ => ⟨rfl, rfl⟩⟩
        simp only [FieldDesc.hasPrepare, if_true]
        exact prepareValue_id _ _ hval
    | mapF ks vs a =>
      intro v hwf hval hsh
      obtain ⟨prs, rfl, hall⟩ := fieldTypeValidate_mapF_ok ks vs a v hval
      by_cases hse : vs.isEmb = true
      · have hwfvs : wfField vs = true := by
          simp only [wfField, Bool.and_eq_true] at hwf
          exact hwf.2
        have hRTvs : RTfield vs :=
          ihF (fdSize vs) (lt_of_lt_of_le (by simp only [fdSize]; have := fdSize_pos ks; omega) hfN)
            vs le_rfl
        have hshM : noShadowM vs prs = true := by simpa [noShadowV] using hsh
        obtain ⟨eprs, heprs, prs1, hprepS, hallS, hshS, hexpS⟩ :=
          RTmap ks vs hRTvs hwfvs prs hall hshM
        refine ⟨.vdict eprs, ?_, rfl, .vdict prs1, ?_, ?_, ?_, ?_, ?_⟩
        · simp [exportField, hse, heprs]
        · simp [FieldDesc.hasPrepare, prepareValue, hprepS]
        · simp [fieldTypeValidate, hallS]
        · simpa [noShadowV] using hshS
        · simp [exportField, hse, hexpS]
        · intro hcv
          have hcv2 : FieldDesc.isEmb vs = false := hcv
          rw [hse] at hcv2
          cases hcv2
      · have hse2 : vs.isEmb = false := by revert hse; cases vs.isEmb <;> simp
        have hcv : convertsF (.mapF ks vs a) = false := by simp [convertsF, hse2]
        refine ⟨.vdict prs, exportField_raw _ _ hcv, rfl, .vdict prs, ?_, hval, hsh,
          exportField_raw _ _ hcv, fun _ => ⟨rfl, rfl⟩⟩
        simp only [FieldDesc.hasPrepare, if_true]
        exact prepareValue_id _ _ hval
  · -- schemas
    intro γ hγN
    cases γ with
    | nil =>
      intro st _ _ _
      exact ⟨[], by simp [exportGo], initDocState, by simp [ofSchemaFields, updateGo],
        by simp [validateFieldsGo], by simp [noShadowS], by simp [exportGo]⟩
    | cons p rest =>
      obtain ⟨n, f⟩ := p
      intro st hwf hval hsh
      have hwf2 := hwf
      simp only [wfSchema, List.map_cons, nodupStr, wfInnerGo, Bool.and_eq_true,
        Bool.not_eq_true] at hwf2
      obtain ⟨⟨hcont, hndrest⟩, ⟨hwfF, hchF⟩, hwfRest⟩ := hwf2
      have hnmem : ¬ n ∈ rest.map Prod.fst := by
        intro hm
        have hc2 : (rest.map Prod.fst).contains n = true := List.elem_iff.mpr hm
        rw [hc2] at hcont
        cases hcont
      have hwfSrest : wfSchema rest = true := by
        simp [wfSchema, hndrest, hwfRest]
      have hRTrest : RTdoc rest :=
        ihD (schemaSize rest)
          (lt_of_lt_of_le (by simp only [schemaSize]; omega) hγN) rest le_rfl
      simp only [noShadowS, Bool.and_eq_true] at hsh
      obtain ⟨hsh1, hshRest⟩ := hsh
      cases hr : resolveValue f st n with
      | error e => rw [hr] at hsh1; cases hsh1
      | ok v =>
        rw [hr] at hsh1
        by_cases hvn : v = Value.vnone
        · -- head resolves to None: skipped by export, absent on re-import
          subst hvn
          have hdni : defaultNoneIsh f = true := by
            simpa [Value.isNone] using hsh1
          have hinv := validateFieldsGo_cons_ok_true n f rest st true hval
          have hnf : (true && f.attrs.required) = false := hinv.1 hr
          have htail := hinv.2
          obtain ⟨out, hout, d1, hupd, hv1, hs1, he1⟩ := hRTrest st hwfSrest htail hshRest
          have houtn : lookupStr out n = none := exportGo_keys rest st out n hout hnmem
          have hd1n : lookupStr d1.store n = none := by
            have hn2 : ¬ n ∈ (ofSchemaFields rest).map Prod.fst := by
              rw [ofSchemaFields_keys]; exact hnmem
            have := updateGo_keys_untouched (ofSchemaFields rest) false initDocState out n
              hn2 d1 hupd
            simpa [initDocState, lookupStr] using this.1
          have hres1 : resolveValue f d1.store n = .ok .vnone :=
            resolveValue_default_noneIsh f d1.store n hd1n hdni
          refine ⟨out, ?_, d1, ?_, ?_, ?_, ?_⟩
          · rw [exportGo_cons_skip n f rest st hr]; exact hout
          · rw [ofSchemaFields_cons, updateGo_cons_skip n (some f) (ofSchemaFields rest)
              false initDocState out (Or.inl houtn)]
            exact hupd
          · rw [validateFieldsGo_cons_vnone_skip n f rest d1.store true hres1 hnf]
            exact hv1
          · simp only [noShadowS, Bool.and_eq_true]
            exact ⟨by simp [hres1, Value.isNone, hdni], hs1⟩
          · rw [exportGo_cons_skip n f rest d1.store hres1]; exact he1
        · -- head resolves to a present value
          have hshV : noShadowV f v = true := by
            simpa [Value.isNone_eq_false v hvn] using hsh1
          obtain ⟨hch, htv, htail⟩ := validateFieldsGo_cons_ok_val n f rest st true v hr hvn hval
          have hRTf : RTfield f :=
            ihF (fdSize f) (lt_of_lt_of_le (by simp only [schemaSize]; omega) hγN) f le_rfl
          obtain ⟨ev, hev, hevn, v1, hprep1, hval1, hshb, hexp1, hconv⟩ := hRTf v hwfF htv hshV
          obtain ⟨outR, houtR, d1R, hupdR, hvR, hsR, heR⟩ := hRTrest st hwfSrest htail hshRest
          have hevne : ev ≠ Value.vnone := Value.isNone_false_ne ev hevn
          have hlookout : lookupStr ((n, ev) :: outR) n = some ev := by simp [lookupStr]
          -- the re-import of the head field stores v1, then proceeds on the tail
          have hstep : updateGo (ofSchemaFields ((n, f) :: rest)) false initDocState
              ((n, ev) :: outR) =
              updateGo (ofSchemaFields rest) false
                ⟨[(n, v1)], [], false⟩ ((n, ev) :: outR) := by
            rw [ofSchemaFields_cons]
            by_cases hp : f.hasPrepare = true
            · rw [if_pos hp] at hprep1
              rw [updateGo_cons_some_prep_ok n f (ofSchemaFields rest) false initDocState
                ((n, ev) :: outR) ev v1 hp hlookout hevne hprep1]
              simp [initDocState, setStore]
            · rw [if_neg hp] at hprep1
              injection hprep1 with hee
              have hp2 : f.hasPrepare = false := by revert hp; cases f.hasPrepare <;> simp
              rw [updateGo_cons_some_noprep n f (ofSchemaFields rest) false initDocState
                ((n, ev) :: outR) ev hp2 hlookout hevne]
              simp [initDocState, setStore, hee]
          have hdata : updateGo (ofSchemaFields rest) false ⟨[(n, v1)], [], false⟩
              ((n, ev) :: outR) =
              updateGo (ofSchemaFields rest) false ⟨[(n, v1)], [], false⟩ outR := by
            apply updateGo_data_congr
            intro key hkey
            rw [ofSchemaFields_keys] at hkey
            have : key ≠ n := by
              intro he; subst he; exact hnmem hkey
            simp [lookupStr, Ne.symm this]
          have hframe : updateGo (ofSchemaFields rest) false ⟨[(n, v1)], [], false⟩ outR =
              Except.map (fun d2 => ⟨(n, v1) :: d2.store, d2.modified, d2.isValidCache⟩)
                (updateGo (ofSchemaFields rest) false ⟨[], [], false⟩ outR) := by
            have hn2 : ¬ n ∈ (ofSchemaFields rest).map Prod.fst := by
              rw [ofSchemaFields_keys]; exact hnmem
            exact updateGo_store_frame (ofSchemaFields rest) false n v1 [] [] false outR hn2
          have hd1 : updateGo (ofSchemaFields ((n, f) :: rest)) false initDocState
              ((n, ev) :: outR) =
              .ok ⟨(n, v1) :: d1R.store, d1R.modified, d1R.isValidCache⟩ := by
            rw [hstep, hdata, hframe]
            have : (⟨[], [], false⟩ : DocState) = initDocState := rfl
            rw [this, hupdR]
            rfl
          have hres1 : resolveValue f ((n, v1) :: d1R.store) n = .ok v1 := by
            rw [resolveValue]
            simp [lookupStr]
          have hv1n : v1 ≠ Value.vnone :=
            Value.isNone_false_ne v1 (Value.isNone_false_of_valid f v1 hval1)
          have hch1 : (match f.attrs.choices with | some mem => mem v1 | none => true) = true := by
            by_cases hcvf : convertsF f = true
            · have hcn : f.attrs.choices.isNone = true := by
                rw [hcvf] at hchF
                simpa using hchF
              rw [Option.isNone_iff_eq_none] at hcn
              rw [hcn]
            · have := hconv (by revert hcvf; cases convertsF f <;> simp)
              rw [this.2]
              exact hch
          have hcongr : ∀ n2 f2, (n2, f2) ∈ rest →
              resolveValue f2 ((n, v1) :: d1R.store) n2 = resolveValue f2 d1R.store n2 :=
            resolve_congr_cons_outside rest n v1 d1R.store hnmem
          refine ⟨(n, ev) :: outR, ?_, ⟨(n, v1) :: d1R.store, d1R.modified, d1R.isValidCache⟩,
            hd1, ?_, ?_, ?_⟩
          · rw [exportGo_cons_export_ok n f rest st v ev hr hvn hev, houtR]
            rfl
          · rw [validateFieldsGo_cons_pass n f rest _ true v1 hres1 hv1n hch1 hval1,
              validateFieldsGo_resolve_congr rest _ d1R.store true hcongr]
            exact hvR
          · simp only [noShadowS, Bool.and_eq_true]
            constructor
            · simp [hres1, Value.isNone_eq_false v1 hv1n, hshb]
            · rw [noShadowS_resolve_congr rest _ d1R.store hcongr]
              exact hsR
          · rw [exportGo_cons_export_ok n f rest _ v1 ev hres1 hv1n hexp1,
              exportGo_resolve_congr rest _ d1R.store hcongr, heR]
            rfl

/-- The top-level walk of the round trip.  The outer `to_N` runs with
`validate=False`, so the top schema is exported, re-imported and
re-exported without ever being re-validated: unlike the schema of an
embedded class (`RTdoc`), the top-level table needs no `choices`
condition, only structural well-formedness of its fields. -/
theorem roundTrip_top (γ : Schema) :
    ∀ st, nodupStr (γ.map Prod.fst) = true → wfTopGo γ = true →
      validateFieldsGo γ st true = .ok true → noShadowS γ st = true →
      ∃ out, exportGo γ st = .ok out ∧
        ∃ d1, updateGo (ofSchemaFields γ) false initDocState out = .ok d1 ∧
          exportGo γ d1.store = .ok out := by
  induction γ with
  | nil =>
    intro st _ _ _ _
    exact ⟨[], by simp [exportGo], initDocState,
      by simp [ofSchemaFields, updateGo], by simp [exportGo]⟩
  | cons p rest ih =>
    obtain ⟨n, f⟩ := p
    intro st hnd hwfT hval hsh
    simp only [List.map_cons, nodupStr, Bool.and_eq_true, Bool.not_eq_true] at hnd
    obtain ⟨hcont, hndrest⟩ := hnd
    simp only [wfTopGo, Bool.and_eq_true] at hwfT
    obtain ⟨hwfF, hwfRest⟩ := hwfT
    have hnmem : ¬ n ∈ rest.map Prod.fst := by
      intro hm
      have hc2 : (rest.map Prod.fst).contains n = true := List.elem_iff.mpr hm
      rw [hc2] at hcont
      cases hcont
    simp only [noShadowS, Bool.and_eq_true] at hsh
    obtain ⟨hsh1, hshRest⟩ := hsh
    cases hr : resolveValue f st n with
    | error e => rw [hr] at hsh1; cases hsh1
    | ok v =>
      rw [hr] at hsh1
      by_cases hvn : v = Value.vnone
      · -- head resolves to None: skipped by export, absent on re-import
        subst hvn
        have hdni : defaultNoneIsh f = true := by
          simpa [Value.isNone] using hsh1
        have hinv := validateFieldsGo_cons_ok_true n f rest st true hval
        have hnf : (true && f.attrs.required) = false := hinv.1 hr
        have htail := hinv.2
        obtain ⟨out, hout, d1, hupd, he1⟩ := ih st hndrest hwfRest htail hshRest
        have houtn : lookupStr out n = none := exportGo_keys rest st out n hout hnmem
        have hd1n : lookupStr d1.store n = none := by
          have hn2 : ¬ n ∈ (ofSchemaFields rest).map Prod.fst := by
            rw [ofSchemaFields_keys]; exact hnmem
          have hfr := updateGo_keys_untouched (ofSchemaFields rest) false initDocState out n
            hn2 d1 hupd
          simpa [initDocState, lookupStr] using hfr.1
        have hres1 : resolveValue f d1.store n = .ok .vnone :=
          resolveValue_default_noneIsh f d1.store n hd1n hdni
        refine ⟨out, ?_, d1, ?_, ?_⟩
        · rw [exportGo_cons_skip n f rest st hr]; exact hout
        · rw [ofSchemaFields_cons, updateGo_cons_skip n (some f) (ofSchemaFields rest)
            false initDocState out (Or.inl houtn)]
          exact hupd
        · rw [exportGo_cons_skip n f rest d1.store hres1]; exact he1
      · -- head resolves to a present value
        have hshV : noShadowV f v = true := by
          simpa [Value.isNone_eq_false v hvn] using hsh1
        obtain ⟨hch, htv, htail⟩ := validateFieldsGo_cons_ok_val n f rest st true v hr hvn hval
        have hRTf : RTfield f := (roundTrip_main (fdSize f)).1 f le_rfl
        obtain ⟨ev, hev, hevn, v1, hprep1, hval1, hshb, hexp1, hconv⟩ := hRTf v hwfF htv hshV
        obtain ⟨outR, houtR, d1R, hupdR, heR⟩ := ih st hndrest hwfRest htail hshRest
        have hevne : ev ≠ Value.vnone := Value.isNone_false_ne ev hevn
        have hlookout : lookupStr ((n, ev) :: outR) n = some ev := by simp [lookupStr]
        -- the re-import of the head field stores v1, then proceeds on the tail
        have hstep : updateGo (ofSchemaFields ((n, f) :: rest)) false initDocState
            ((n, ev) :: outR) =
            updateGo (ofSchemaFields rest) false
              ⟨[(n, v1)], [], false⟩ ((n, ev) :: outR) := by
          rw [ofSchemaFields_cons]
          by_cases hp : f.hasPrepare = true
          · rw [if_pos hp] at hprep1
            rw [updateGo_cons_some_prep_ok n f (ofSchemaFields rest) false initDocState
              ((n, ev) :: outR) ev v1 hp hlookout hevne hprep1]
            simp [initDocState, setStore]
          · rw [if_neg hp] at hprep1
            injection hprep1 with hee
            have hp2 : f.hasPrepare = false := by revert hp; cases f.hasPrepare <;> simp
            rw [updateGo_cons_some_noprep n f (ofSchemaFields rest) false initDocState
              ((n, ev) :: outR) ev hp2 hlookout hevne]
            simp [initDocState, setStore, hee]
        have hdata : updateGo (ofSchemaFields rest) false ⟨[(n, v1)], [], false⟩
            ((n, ev) :: outR) =
            updateGo (ofSchemaFields rest) false ⟨[(n, v1)], [], false⟩ outR := by
          apply updateGo_data_congr
          intro key hkey
          rw [ofSchemaFields_keys] at hkey
          have hkn : key ≠ n := by
            intro he; subst he; exact hnmem hkey
          simp [lookupStr, Ne.symm hkn]
        have hframe : updateGo (ofSchemaFields rest) false ⟨[(n, v1)], [], false⟩ outR =
            Except.map (fun d2 => ⟨(n, v1) :: d2.store, d2.modified, d2.isValidCache⟩)
              (updateGo (ofSchemaFields rest) false ⟨[], [], false⟩ outR) := by
          have hn2 : ¬ n ∈ (ofSchemaFields rest).map Prod.fst := by
            rw [ofSchemaFields_keys]; exact hnmem
          exact updateGo_store_frame (ofSchemaFields rest) false n v1 [] [] false outR hn2
        have hd1 : updateGo (ofSchemaFields ((n, f) :: rest)) false initDocState
            ((n, ev) :: outR) =
            .ok ⟨(n, v1) :: d1R.store, d1R.modified, d1R.isValidCache⟩ := by
          rw [hstep, hdata, hframe]
          have hinit : (⟨[], [], false⟩ : DocState) = initDocState := rfl
          rw [hinit, hupdR]
          rfl
        have hres1 : resolveValue f ((n, v1) :: d1R.store) n = .ok v1 := by
          rw [resolveValue]
          simp [lookupStr]
        have hv1n : v1 ≠ Value.vnone :=
          Value.isNone_false_ne v1 (Value.isNone_false_of_valid f v1 hval1)
        have hcongr : ∀ n2 f2, (n2, f2) ∈ rest →
            resolveValue f2 ((n, v1) :: d1R.store) n2 = resolveValue f2 d1R.store n2 :=
          resolve_congr_cons_outside rest n v1 d1R.store hnmem
        refine ⟨(n, ev) :: outR, ?_,
          ⟨(n, v1) :: d1R.store, d1R.modified, d1R.isValidCache⟩, hd1, ?_⟩
        · rw [exportGo_cons_export_ok n f rest st v ev hr hvn hev, houtR]
          rfl
        · rw [exportGo_cons_export_ok n f rest _ v1 ev hres1 hv1n hexp1,
            exportGo_resolve_congr rest _ d1R.store hcongr, heR]
          rfl

end Dico

/-- C1 counterexample: the unqualified round-trip claim fails when a stored
`None` shadows a non-`None` default.  For a document class with a single
optional `IntegerField` carrying `default=1`, on an instance whose attribute
holds `None`: strict `validate()` returns true (an optional field may be
`None`), `to_dict(validate=False)` omits the `None` field and produces `{}`,
`from_dict({})` builds a fresh instance with an empty store, and that
instance's `to_dict(validate=False)` resolves the default and produces
`{'count': 1}`, which is not structurally equal to the original export
`{}`. -/
theorem C1_roundtrip_counterexample :
    validateDocument [("count", .intF ⟨some (.vint 1), false, none⟩)]
        ⟨[("count", .vnone)], ["count"], false⟩ true
      = .ok (true, ⟨[("count", .vnone)], ["count"], true⟩) ∧
    toDict [("count", .intF ⟨some (.vint 1), false, none⟩)] false false
        ⟨[("count", .vnone)], ["count"], false⟩ = .ok [] ∧
    fromDict [("count", .intF ⟨some (.vint 1), false, none⟩)] [] = .ok initDocState ∧
    toDict [("count", .intF ⟨some (.vint 1), false, none⟩)] false false initDocState
      = .ok [("count", .vint 1)] ∧
    ([("count", Value.vint 1)] : List (String × Value)) ≠ [] := by
  refine ⟨?_, ?_, ?_, ?_, by simp⟩
  · simp [validateDocument, validateFieldsGo, resolveValue, lookupStr, FieldDesc.attrs,
      Value.isNone]
  · simp [toDict, toView, applyFilt, topViewGo, resolveValue, lookupStr, Value.isNone]
  · simp [fromDict, fromPipe, updateFrom, applyFilt, updateGo, ofSchemaFields, lookupStr,
      initDocState]
  · simp [toDict, toView, applyFilt, topViewGo, resolveValue, lookupStr, initDocState,
      FieldDesc.attrs, FieldDesc.hasPrepare, exportField, convertsF, Value.isNone]

/-- C1 (amended): the round-trip holds under three added hypotheses.  The
validity cache is clean when `validate()` is called, so the reported `true`
reflects the current store.  No field of the instance — hereditarily through
embedded documents, lists and mappings — resolves to `None` while carrying a
non-`None` default (`noShadowS`; otherwise the re-imported instance resolves
the default where the original resolved `None`, as in the counterexample).
`wfDoc` asks that each field table be a dict (no duplicate names,
hereditarily — true of every class, the tables are Python dicts) and that
inside every embedded class — whose schema the nested `to_N` exports
re-validate — a field whose export/import converts its value (an embedded
field, a list of embedded documents, a mapping with embedded values)
carries no `choices` sequence; a reconstructed document is a fresh object
and cannot re-pass an `in choices` test.  `choices` is unrestricted on
top-level fields (converting ones included) and on non-converting nested
fields, since the outer `to_dict(validate=False)` never re-checks it and a
non-converting field re-validates its original value.  Under these,
`to_dict(validate=False)` succeeds, `from_dict` of its output succeeds,
and the rebuilt instance's `to_dict(validate=False)` is structurally equal
to the original export. -/
theorem C1_roundtrip_amended (γ : Schema) (d d2 : DocState)
    (hwf : wfDoc γ = true) (hcache : d.isValidCache = false)
    (hval : validateDocument γ d true = .ok (true, d2))
    (hsh : noShadowS γ d.store = true) :
    ∃ out, toDict γ false false d = .ok out ∧
      ∃ d1, fromDict γ out = .ok d1 ∧ toDict γ false false d1 = .ok out := by
  have hvfg : validateFieldsGo γ d.store true = .ok true := by
    cases hb : validateFieldsGo γ d.store true with
    | error e => simp [validateDocument, hcache, hb] at hval
    | ok b =>
      cases b with
      | true => rfl
      | false => simp [validateDocument, hcache, hb] at hval
  have hnd : nodupStr (γ.map Prod.fst) = true := by
    have h2 := hwf
    simp only [wfDoc, Bool.and_eq_true] at h2
    exact h2.1
  have hwfT : wfTopGo γ = true := by
    have h2 := hwf
    simp only [wfDoc, Bool.and_eq_true] at h2
    exact h2.2
  have hlk : ∀ n f, (n, f) ∈ γ → lookupStr γ n = some f :=
    fun n f hm => lookupStr_of_mem_nodup γ hnd n f hm
  obtain ⟨out, hout, d1, hupd, hout1⟩ :=
    roundTrip_top γ d.store hnd hwfT hvfg hsh
  have htv : topViewGo γ d.store (γ.map Prod.fst) = .ok out := by
    rw [topViewGo_eq_exportGo γ γ d.store hlk]; exact hout
  have htv1 : topViewGo γ d1.store (γ.map Prod.fst) = .ok out := by
    rw [topViewGo_eq_exportGo γ γ d1.store hlk]; exact hout1
  refine ⟨out, ?_, d1, ?_, ?_⟩
  · simp [toDict, toView, applyFilt, htv]
  · simp [fromDict, fromPipe, updateFrom, applyFilt, hupd]
  · simp [toDict, toView, applyFilt, htv1]

/-- Witness for C1 amended: a two-field schema — a required integer `id`
with no default and an embedded field `child` that itself carries a
`choices` sequence (allowed at top level) — on an instance holding
`id = 4` and a one-field child document, with a clean cache. -/
theorem C1_roundtrip_amended_witness :
    ∃ out, toDict
        [("id", FieldDesc.intF ⟨none, true, none⟩),
         ("child", FieldDesc.embF "Child" [("n", .intF ⟨none, false, none⟩)]
            ⟨none, false, some (fun _ => true)⟩)] false false
        ⟨[("id", Value.vint 4),
          ("child", Value.vdoc "Child" [("n", Value.vint 7)])], [], false⟩
      = .ok out ∧
      ∃ d1, fromDict
          [("id", FieldDesc.intF ⟨none, true, none⟩),
           ("child", FieldDesc.embF "Child" [("n", .intF ⟨none, false, none⟩)]
              ⟨none, false, some (fun _ => true)⟩)] out = .ok d1 ∧
        toDict
          [("id", FieldDesc.intF ⟨none, true, none⟩),
           ("child", FieldDesc.embF "Child" [("n", .intF ⟨none, false, none⟩)]
              ⟨none, false, some (fun _ => true)⟩)] false false d1 = .ok out :=
  C1_roundtrip_amended
    [("id", .intF ⟨none, true, none⟩),
     ("child", .embF "Child" [("n", .intF ⟨none, false, none⟩)]
        ⟨none, false, some (fun _ => true)⟩)]
    ⟨[("id", Value.vint 4), ("child", Value.vdoc "Child" [("n", Value.vint 7)])],
      [], false⟩
    ⟨[("id", Value.vint 4), ("child", Value.vdoc "Child" [("n", Value.vint 7)])],
      [], true⟩
    (by simp [wfDoc, nodupStr, wfTopGo, wfField, wfInnerGo, convertsF, FieldDesc.attrs])
    rfl
    (by simp [validateDocument, validateFieldsGo, resolveValue, lookupStr, FieldDesc.attrs,
      fieldTypeValidate, integerValidate, Value.isNone])
    (by simp [noShadowS, noShadowV, resolveValue, lookupStr, Value.isNone])

namespace DicoB

/- The stateful layer: the heap of mutable objects behind the identity,
backlink (`_parents`) and dirty-propagation behaviour of the source.  The
functional `Dico` layer computes the produced values; this layer tracks the
side effects of `BaseField._changed`, `_prepare` backlink registration and
the `NotifyList` wrappers. -/

/-- A value held by an attribute: an immutable Python scalar, or a
reference to a heap object (an embedded `Document` instance or a
`NotifyList`). -/
inductive BVal where
  | prim : Dico.Value → BVal
  | ref : Nat → BVal

/-- A heap object: a `Document` instance (`__init__`, lines 289-295: the
attribute store plus `_modified_fields`, `_is_valid` and `_parents`), or a
`NotifyList` (mutable.py lines 4-35: the element list and `_parents`).  A
parent entry is the owning instance address together with the owning field
name (of the `(instance, field)` pair of the source, only `field_name`
matters to `_changed`). -/
inductive HObj where
  | doc (store : List (String × BVal)) (modified : List String)
        (isValid : Bool) (parents : List (Nat × String))
  | nlist (elems : List BVal) (parents : List (Nat × String))

/-- Address lookup in the heap. -/
def lookupN : List (Nat × HObj) → Nat → Option HObj
  | [], _ => none
  | (a, o) :: rest, b => if a = b then some o else lookupN rest b

/-- In-place overwrite of the object at an address. -/
def setHeapN : List (Nat × HObj) → Nat → HObj → List (Nat × HObj)
  | [], a, o => [(a, o)]
  | (b, o0) :: rest, a, o =>
      if b = a then (a, o) :: rest else (b, o0) :: setHeapN rest a o

/-- The heap together with the next fresh address. -/
structure HeapSt where
  objs : List (Nat × HObj)
  next : Nat

def parentsOf : HObj → List (Nat × String)
  | .doc _ _ _ ps => ps
  | .nlist _ ps => ps

def withParents (ps : List (Nat × String)) : HObj → HObj
  | .doc st m iv _ => .doc st m iv ps
  | .nlist es _ => .nlist es ps

def pairEq : Nat × String → Nat × String → Bool
  | (a, x), (b, y) => decide (a = b) && decide (x = y)

def containsPair : List (Nat × String) → Nat × String → Bool
  | [], _ => false
  | q :: rest, p => pairEq q p || containsPair rest p

/-- `set.add` on a `_parents` set. -/
def insertPair (p : Nat × String) (l : List (Nat × String)) : List (Nat × String) :=
  if containsPair l p then l else l ++ [p]

/-- `set.union` of `_parents` sets (`value._parents.union(self._parents)`,
mutable.py lines 16-17). -/
def unionPairs (base : List (Nat × String)) : List (Nat × String) → List (Nat × String)
  | [] => base
  | p :: rest => unionPairs (insertPair p base) rest

/-- The local effect of `BaseField._changed` (lines 47-48) on a document:
add the field name to `_modified_fields` and clear `_is_valid`. -/
def markDoc (name : String) : HObj → HObj
  | .doc st m _ ps => .doc st (Dico.insertStr name m) false ps
  | o => o

mutual

/-- `BaseField._changed(instance)` (lines 46-52): mark the instance with
the field name, then recurse into every `(parent, parent_field)` backlink
with the parent field name.  The recursion of the source does not
terminate on a cyclic parent graph (no API call builds one); the model
takes a fuel bound, sufficient for any acyclic heap. -/
def changedB : Nat → String → Nat → List (Nat × HObj) → List (Nat × HObj)
  | 0, _, _, h => h
  | fuel + 1, name, addr, h =>
      match lookupN h addr with
      | some o => changedParentsB fuel (parentsOf o) (setHeapN h addr (markDoc name o))
      | none => h
termination_by fuel _ _ _ => (fuel, 0)

/-- The backlink loop of `_changed` (lines 50-52) and of the `NotifyList`
notifications (mutable.py lines 18-19, 24-25, 30-31). -/
def changedParentsB : Nat → List (Nat × String) → List (Nat × HObj) → List (Nat × HObj)
  | _, [], h => h
  | fuel, (p, pf) :: rest, h => changedParentsB fuel rest (changedB fuel pf p h)
termination_by fuel l _ => (fuel, l.length + 1)

end

/-- The `_modified_fields` of the document at an address. -/
def docModified (h : List (Nat × HObj)) (a : Nat) : Option (List String) :=
  match lookupN h a with
  | some (.doc _ m _ _) => some m
  | _ => none

/-- The `_is_valid` cache of the document at an address. -/
def docIsValid (h : List (Nat × HObj)) (a : Nat) : Option Bool :=
  match lookupN h a with
  | some (.doc _ _ iv _) => some iv
  | _ => none

/-- The field-kind information this layer needs of a descriptor: an
`EmbeddedDocumentField` (registers itself in the parents of an
already-instantiated value, lines 73-75), a `ListField` whose subfield
has no `_prepare` (wraps a plain list into a linked `NotifyList`,
lines 175-178), or a scalar field with no `_prepare`. -/
inductive BFieldKind where
  | plain
  | embedded
  | listK

def isNoneB : BVal → Bool
  | .prim v => v.isNone
  | .ref _ => false

def setBStore : List (String × BVal) → String → BVal → List (String × BVal)
  | [], key, v => [(key, v)]
  | (k, w) :: rest, key, v =>
      if k = key then (k, v) :: rest else (k, w) :: setBStore rest key v

/-- The state effects of `field._prepare(instance, value)`:
`EmbeddedDocumentField._prepare` adds `(instance, field)` to the parents
of an embedded instance (lines 73-75; the dict-conversion branch is the
functional layer), and `ListField._prepare` wraps a plain list into a
fresh `NotifyList` whose parents hold `(instance, field)`
(lines 169-178). -/
def prepareB (k : BFieldKind) (self : Nat) (fname : String) (v : BVal)
    (h : HeapSt) : BVal × HeapSt :=
  match k, v with
  | .embedded, .ref a =>
      (.ref a,
       match lookupN h.objs a with
       | some (.doc st m iv ps) =>
           ⟨setHeapN h.objs a (.doc st m iv (insertPair (self, fname) ps)), h.next⟩
       | _ => h)
  | .listK, .prim (.vlist xs) =>
      (.ref h.next,
       ⟨h.objs ++ [(h.next, .nlist (xs.map BVal.prim) [(self, fname)])], h.next + 1⟩)
  | _, w => (w, h)

/-- `object.__setattr__(self, name, value)` on a document: overwrite the
attribute in the instance store. -/
def storeAttr (h : List (Nat × HObj)) (self : Nat) (name : String) (v : BVal) :
    List (Nat × HObj) :=
  match lookupN h self with
  | some (.doc st m iv ps) => setHeapN h self (.doc (setBStore st name v) m iv ps)
  | _ => h

/-- `Document.__setattr__` (lines 310-316) in the stateful layer: a
declared field prepares the value (registering backlinks), marks itself
changed on the instance (propagating through the instance backlinks), and
stores the value; an undeclared name is stored directly. -/
def setAttrB (fields : List (String × BFieldKind)) (name : String) (v : BVal)
    (self : Nat) (fuel : Nat) (h : HeapSt) : HeapSt :=
  match Dico.lookupStr fields name with
  | some k =>
      let pv := prepareB k self name v h
      let h2 := changedB fuel name self pv.2.objs
      ⟨storeAttr h2 self name pv.1, pv.2.next⟩
  | none => ⟨storeAttr h.objs self name v, h.next⟩

/-- The generated `update` closure (lines 420-439) in the stateful layer,
no filter: for each declared field whose key holds a value that
`is not None`, `_prepare` then `object.__setattr__`, and `field._changed`
only when `changed` is true. -/
def updateB (fields : List (String × BFieldKind)) (changed : Bool)
    (data : List (String × BVal)) (self : Nat) (fuel : Nat) (h : HeapSt) : HeapSt :=
  match fields with
  | [] => h
  | (key, k) :: rest =>
      match Dico.lookupStr data key with
      | none => updateB rest changed data self fuel h
      | some v =>
          if isNoneB v then updateB rest changed data self fuel h
          else
            let pv := prepareB k self key v h
            let h2 : HeapSt := ⟨storeAttr pv.2.objs self key pv.1, pv.2.next⟩
            let h3 : HeapSt :=
              if changed then ⟨changedB fuel key self h2.objs, h2.next⟩ else h2
            updateB rest changed data self fuel h3

/-- `from_dict` in the stateful layer: `Document.__init__` allocates a
fresh instance with empty modified set, dirty cache and no parents
(lines 289-295), then the update closure runs with `changed=False`. -/
def fromDictB (fields : List (String × BFieldKind)) (data : List (String × BVal))
    (fuel : Nat) (h : HeapSt) : HeapSt × Nat :=
  (updateB fields false data h.next fuel
    ⟨h.objs ++ [(h.next, .doc [] [] false [])], h.next + 1⟩, h.next)

/-- `value._parents = value._parents.union(self._parents)` for a value
that carries `_parents` (mutable.py lines 16-17, 28-29). -/
def absorbParents (v : BVal) (ps : List (Nat × String)) (h : List (Nat × HObj)) :
    List (Nat × HObj) :=
  match v with
  | .ref a =>
      match lookupN h a with
      | some o => setHeapN h a (withParents (unionPairs (parentsOf o) ps) o)
      | none => h
  | .prim _ => h

def insertAt : Nat → BVal → List BVal → List BVal
  | _, v, [] => [v]
  | 0, v, l => v :: l
  | n + 1, v, x :: l => x :: insertAt n v l

/-- `NotifyList.__setitem__` (mutable.py lines 14-20): the new value
absorbs the list parents when it carries `_parents`, every backlink is
notified through `_changed`, and the element is replaced. -/
def notifySetItemB (la idx : Nat) (v : BVal) (fuel : Nat) (h : HeapSt) : HeapSt :=
  match lookupN h.objs la with
  | some (.nlist elems ps) =>
      let h1 := absorbParents v ps h.objs
      let h2 := changedParentsB fuel ps h1
      ⟨setHeapN h2 la (.nlist (elems.set idx v) ps), h.next⟩
  | _ => h

/-- `NotifyList.insert` (mutable.py lines 27-32): same notifications as
`__setitem__`, inserting instead of replacing. -/
def notifyInsertB (la idx : Nat) (v : BVal) (fuel : Nat) (h : HeapSt) : HeapSt :=
  match lookupN h.objs la with
  | some (.nlist elems ps) =>
      let h1 := absorbParents v ps h.objs
      let h2 := changedParentsB fuel ps h1
      ⟨setHeapN h2 la (.nlist (insertAt idx v elems) ps), h.next⟩
  | _ => h

theorem lookupN_setHeapN_self (h : List (Nat × HObj)) (a : Nat) (o : HObj) :
    lookupN (setHeapN h a o) a = some o := by
  induction h with
  | nil => simp [setHeapN, lookupN]
  | cons p rest ih =>
    obtain ⟨b, o0⟩ := p
    by_cases hb : b = a
    · subst hb; simp [setHeapN, lookupN]
    · simp [setHeapN, lookupN, hb, ih]

theorem lookupN_setHeapN_ne (h : List (Nat × HObj)) (a b : Nat) (o : HObj)
    (hne : b ≠ a) : lookupN (setHeapN h a o) b = lookupN h b := by
  induction h with
  | nil => simp [setHeapN, lookupN, Ne.symm hne]
  | cons p rest ih =>
    obtain ⟨c, o0⟩ := p
    by_cases hc : c = a
    · subst hc
      simp [setHeapN, lookupN, Ne.symm hne]
    · simp [setHeapN, lookupN, hc, ih]

theorem lookupN_append_some (h l : List (Nat × HObj)) (a : Nat) (o : HObj)
    (hs : lookupN h a = some o) : lookupN (h ++ l) a = some o := by
  induction h with
  | nil => cases hs
  | cons p rest ih =>
    obtain ⟨b, o0⟩ := p
    by_cases hb : b = a
    · subst hb
      simp [lookupN] at hs
      simp [lookupN, hs]
    · simp [lookupN, hb] at hs
      simp [lookupN, hb, ih hs]

/-- `__setattr__` on a declared field of a backlink-free document: the
field name is added to the modified set (exactly this), and the validity
cache is cleared. -/
theorem setAttrB_marks (fields : List (String × BFieldKind)) (name : String)
    (k : BFieldKind) (v : Dico.Value) (self fuel : Nat) (h : HeapSt)
    (st : List (String × BVal)) (m : List String) (iv : Bool)
    (hk : Dico.lookupStr fields name = some k)
    (hself : lookupN h.objs self = some (.doc st m iv [])) :
    docModified (setAttrB fields name (.prim v) self (fuel + 1) h).objs self
      = some (Dico.insertStr name m) ∧
    docIsValid (setAttrB fields name (.prim v) self (fuel + 1) h).objs self
      = some false := by
  have hpre : lookupN (prepareB k self name (.prim v) h).2.objs self
      = some (.doc st m iv []) := by
    cases k with
    | plain => simpa [prepareB] using hself
    | embedded => simpa [prepareB] using hself
    | listK =>
      cases v with
      | vlist xs =>
        simp only [prepareB]
        exact lookupN_append_some _ _ _ _ hself
      | vnone => simpa [prepareB] using hself
      | vint n => simpa [prepareB] using hself
      | vbool b => simpa [prepareB] using hself
      | vfloat x => simpa [prepareB] using hself
      | vdatetime t => simpa [prepareB] using hself
      | vstr s => simpa [prepareB] using hself
      | vdict prs => simpa [prepareB] using hself
      | vdoc cls stv => simpa [prepareB] using hself
  have hch : changedB (fuel + 1) name self (prepareB k self name (.prim v) h).2.objs
      = setHeapN (prepareB k self name (.prim v) h).2.objs self
          (.doc st (Dico.insertStr name m) false []) := by
    simp [changedB, hpre, markDoc, parentsOf, changedParentsB]
  have hlk2 : lookupN (changedB (fuel + 1) name self
      (prepareB k self name (.prim v) h).2.objs) self
      = some (.doc st (Dico.insertStr name m) false []) := by
    rw [hch]
    exact lookupN_setHeapN_self _ _ _
  refine ⟨?_, ?_⟩ <;>
    simp only [setAttrB, hk, docModified, docIsValid, storeAttr, hlk2,
      lookupN_setHeapN_self]

/-- The one-step backlink notification of a `NotifyList` with a single
owner: the owning field name is added to the owner modified set (exactly
this) and the owner cache cleared. -/
theorem changedParentsB_single (owner fuel : Nat) (L : String)
    (st : List (String × BVal)) (m : List String) (iv : Bool)
    (h : List (Nat × HObj))
    (howner : lookupN h owner = some (.doc st m iv [])) :
    changedParentsB (fuel + 1) [(owner, L)] h
      = setHeapN h owner (.doc st (Dico.insertStr L m) false []) := by
  simp [changedParentsB, changedB, howner, markDoc, parentsOf]

theorem notifySetItemB_marks (la owner idx fuel : Nat) (L : String)
    (v : Dico.Value) (elems : List BVal) (st : List (String × BVal))
    (m : List String) (iv : Bool) (h : HeapSt)
    (hla : lookupN h.objs la = some (.nlist elems [(owner, L)]))
    (howner : lookupN h.objs owner = some (.doc st m iv []))
    (hne : owner ≠ la) :
    docModified (notifySetItemB la idx (.prim v) (fuel + 1) h).objs owner
      = some (Dico.insertStr L m) ∧
    docIsValid (notifySetItemB la idx (.prim v) (fuel + 1) h).objs owner
      = some false ∧
    lookupN (notifySetItemB la idx (.prim v) (fuel + 1) h).objs la
      = some (.nlist (elems.set idx (.prim v)) [(owner, L)]) := by
  have hch := changedParentsB_single owner fuel L st m iv h.objs howner
  have hlo : lookupN (setHeapN (setHeapN h.objs owner
      (.doc st (Dico.insertStr L m) false [])) la
      (.nlist (elems.set idx (.prim v)) [(owner, L)])) owner
      = some (.doc st (Dico.insertStr L m) false []) := by
    rw [lookupN_setHeapN_ne _ _ _ _ hne]
    exact lookupN_setHeapN_self _ _ _
  refine ⟨?_, ?_, ?_⟩ <;>
    simp only [notifySetItemB, hla, absorbParents, hch, docModified, docIsValid,
      hlo, lookupN_setHeapN_self]

theorem notifyInsertB_marks (la owner idx fuel : Nat) (L : String)
    (v : Dico.Value) (elems : List BVal) (st : List (String × BVal))
    (m : List String) (iv : Bool) (h : HeapSt)
    (hla : lookupN h.objs la = some (.nlist elems [(owner, L)]))
    (howner : lookupN h.objs owner = some (.doc st m iv []))
    (hne : owner ≠ la) :
    docModified (notifyInsertB la idx (.prim v) (fuel + 1) h).objs owner
      = some (Dico.insertStr L m) ∧
    docIsValid (notifyInsertB la idx (.prim v) (fuel + 1) h).objs owner
      = some false ∧
    lookupN (notifyInsertB la idx (.prim v) (fuel + 1) h).objs la
      = some (.nlist (insertAt idx (.prim v) elems) [(owner, L)]) := by
  have hch := changedParentsB_single owner fuel L st m iv h.objs howner
  have hlo : lookupN (setHeapN (setHeapN h.objs owner
      (.doc st (Dico.insertStr L m) false [])) la
      (.nlist (insertAt idx (.prim v) elems) [(owner, L)])) owner
      = some (.doc st (Dico.insertStr L m) false []) := by
    rw [lookupN_setHeapN_ne _ _ _ _ hne]
    exact lookupN_setHeapN_self _ _ _
  refine ⟨?_, ?_, ?_⟩ <;>
    simp only [notifyInsertB, hla, absorbParents, hch, docModified, docIsValid,
      hlo, lookupN_setHeapN_self]

/-- An embedded document becoming dirty while linked to an owner marks the
owning field on the owner and clears the owner cache. -/
theorem changedB_embedded_dirty (ae owner fuel : Nat) (fn name : String)
    (est : List (String × BVal)) (em : List String) (eiv : Bool)
    (st : List (String × BVal)) (m : List String) (iv : Bool)
    (h : List (Nat × HObj))
    (hae : lookupN h ae = some (.doc est em eiv [(owner, fn)]))
    (howner : lookupN h owner = some (.doc st m iv []))
    (hne : owner ≠ ae) :
    docModified (changedB (fuel + 1 + 1) name ae h) owner
      = some (Dico.insertStr fn m) ∧
    docIsValid (changedB (fuel + 1 + 1) name ae h) owner = some false ∧
    docIsValid (changedB (fuel + 1 + 1) name ae h) ae = some false := by
  have hlo : lookupN (setHeapN h ae
      (.doc est (Dico.insertStr name em) false [(owner, fn)])) owner
      = some (.doc st m iv []) := by
    rw [lookupN_setHeapN_ne _ _ _ _ hne]
    exact howner
  have hch : changedB (fuel + 1 + 1) name ae h
      = setHeapN (setHeapN h ae
          (.doc est (Dico.insertStr name em) false [(owner, fn)])) owner
          (.doc st (Dico.insertStr fn m) false []) := by
    simp [changedB, changedParentsB, hae, markDoc, parentsOf, hlo]
  have hae2 : lookupN (setHeapN (setHeapN h ae
      (.doc est (Dico.insertStr name em) false [(owner, fn)])) owner
      (.doc st (Dico.insertStr fn m) false [])) ae
      = some (.doc est (Dico.insertStr name em) false [(owner, fn)]) := by
    rw [lookupN_setHeapN_ne _ _ _ _ (fun he => hne he.symm)]
    exact lookupN_setHeapN_self _ _ _
  refine ⟨?_, ?_, ?_⟩ <;>
    simp only [hch, docModified, docIsValid, lookupN_setHeapN_self, hae2]

end DicoB

namespace Dico

/-- With `changed=False`, the generated update never touches the modified
set or the validity cache (`field._changed` only runs when `changed`). -/
theorem updateGo_flags (fields : PipeFields) (data : List (String × Value)) :
    ∀ d d1, updateGo fields false d data = .ok d1 →
      d1.modified = d.modified ∧ d1.isValidCache = d.isValidCache := by
  induction fields with
  | nil =>
    intro d d1 h
    simp [updateGo] at h
    rw [← h]
    exact ⟨rfl, rfl⟩
  | cons p rest ih =>
    obtain ⟨key, f?⟩ := p
    intro d d1 h
    cases hv : lookupStr data key with
    | none =>
      rw [updateGo_cons_skip key f? rest false d data (Or.inl hv)] at h
      exact ih d d1 h
    | some v =>
      by_cases hv0 : v = Value.vnone
      · subst hv0
        rw [updateGo_cons_skip key f? rest false d data (Or.inr hv)] at h
        exact ih d d1 h
      · cases f? with
        | none =>
          rw [updateGo_cons_none_val key rest false d data v hv hv0] at h
          obtain ⟨hm, hcx⟩ := ih _ d1 h
          exact ⟨hm, hcx⟩
        | some f =>
          by_cases hp : f.hasPrepare = true
          · cases hpv : prepareValue f v with
            | error e =>
              rw [updateGo_cons_some_prep_err key f rest false d data v e hp hv hv0 hpv] at h
              cases h
            | ok v1 =>
              rw [updateGo_cons_some_prep_ok key f rest false d data v v1 hp hv hv0 hpv,
                if_neg (by decide)] at h
              obtain ⟨hm, hcx⟩ := ih _ d1 h
              exact ⟨hm, hcx⟩
          · have hp2 : f.hasPrepare = false := by
              revert hp; cases f.hasPrepare <;> simp
            rw [updateGo_cons_some_noprep key f rest false d data v hp2 hv hv0,
              if_neg (by decide)] at h
            obtain ⟨hm, hcx⟩ := ih _ d1 h
            exact ⟨hm, hcx⟩

end Dico

open DicoB

/-- C3: the per-instance validity cache is a two-state machine.  (1) The
baseline import pipeline creates instances dirty.  (2) Strict `validate()`
with the cache already valid is memoised: it returns true and leaves the
instance untouched.  (3) From a dirty cache, strict `validate()` moves the
cache to exactly the boolean it returns — to valid only on success — and
touches neither the values nor the modified set.  (4) `validate_partial()`
(`validate` with `stop_on_required=False`) never changes the instance.
(5) An attribute write to a declared field clears the cache.  (6) A
container mutation reaching the instance through backlinks clears the
owner cache.  (7) A linked embedded document becoming dirty clears the
owner cache. -/
theorem C3_validity_cache_machine :
    (∀ γ data d, fromDict γ data = .ok d → d.isValidCache = false) ∧
    (∀ γ (d : DocState), d.isValidCache = true →
        validateDocument γ d true = .ok (true, d)) ∧
    (∀ γ (d : DocState) b d2, d.isValidCache = false →
        validateDocument γ d true = .ok (b, d2) →
        d2.isValidCache = b ∧ d2.store = d.store ∧ d2.modified = d.modified) ∧
    (∀ γ (d : DocState) b d2,
        validateDocument γ d false = .ok (b, d2) → d2 = d) ∧
    (∀ γ name f (v : Value) (d : DocState) d1, lookupStr γ name = some f →
        setAttrF γ name v d = .ok d1 → d1.isValidCache = false) ∧
    (∀ la owner idx fuel (L : String) (v : Value) elems st m iv (h : HeapSt),
        lookupN h.objs la = some (.nlist elems [(owner, L)]) →
        lookupN h.objs owner = some (.doc st m iv []) →
        owner ≠ la →
        docIsValid (notifySetItemB la idx (.prim v) (fuel + 1) h).objs owner
          = some false) ∧
    (∀ ae owner fuel (fn name : String) est em eiv st m iv
        (h : List (Nat × HObj)),
        lookupN h ae = some (.doc est em eiv [(owner, fn)]) →
        lookupN h owner = some (.doc st m iv []) →
        owner ≠ ae →
        docIsValid (changedB (fuel + 1 + 1) name ae h) owner = some false) := by
  refine ⟨?_, ?_, ?_, ?_, ?_, ?_, ?_⟩
  · intro γ data d h
    simp only [fromDict, fromPipe, updateFrom, applyFilt] at h
    exact (updateGo_flags (ofSchemaFields γ) data initDocState d h).2
  · intro γ d hc
    simp [validateDocument, hc]
  · intro γ d b d2 hc hval
    cases hb : validateFieldsGo γ d.store true with
    | error e => simp [validateDocument, hc, hb] at hval
    | ok bb =>
      cases bb with
      | true =>
        have hvd : validateDocument γ d true
            = .ok (true, { d with isValidCache := true }) := by
          simp [validateDocument, hc, hb]
        rw [hvd] at hval
        injection hval with h1
        injection h1 with hb2 hd2
        cases hb2
        cases hd2
        exact ⟨rfl, rfl, rfl⟩
      | false =>
        have hvd : validateDocument γ d true = .ok (false, d) := by
          simp [validateDocument, hc, hb]
        rw [hvd] at hval
        injection hval with h1
        injection h1 with hb2 hd2
        cases hb2
        cases hd2
        exact ⟨hc, rfl, rfl⟩
  · intro γ d b d2 hval
    cases hb : validateFieldsGo γ d.store false with
    | error e => simp [validateDocument, hb] at hval
    | ok bb =>
      have hvd : validateDocument γ d false = .ok (bb, d) := by
        simp [validateDocument, hb]
      rw [hvd] at hval
      injection hval with h1
      injection h1 with hb2 hd2
      exact hd2.symm
  · intro γ name f v d d1 hk hset
    by_cases hpp : f.hasPrepare = true
    · cases hp : prepareValue f v with
      | error e => simp [setAttrF, hk, hpp, hp] at hset
      | ok v1 =>
        have hvd : setAttrF γ name v d
            = .ok { changedF name d with
                      store := setStore (changedF name d).store name v1 } := by
          simp [setAttrF, hk, hpp, hp]
        rw [hvd] at hset
        injection hset with h1
        rw [← h1]
        simp [changedF]
    · have hp2 : f.hasPrepare = false := by
        revert hpp; cases f.hasPrepare <;> simp
      have hvd : setAttrF γ name v d
          = .ok { changedF name d with
                    store := setStore (changedF name d).store name v } := by
        simp [setAttrF, hk, hp2]
      rw [hvd] at hset
      injection hset with h1
      rw [← h1]
      simp [changedF]
  · intro la owner idx fuel L v elems st m iv h hla howner hne
    exact (notifySetItemB_marks la owner idx fuel L v elems st m iv h
      hla howner hne).2.1
  · intro ae owner fuel fn name est em eiv st m iv h hae howner hne
    exact (changedB_embedded_dirty ae owner fuel fn name est em eiv st m iv h
      hae howner hne).2.1

/-- Witness for C3 at concrete inputs: a one-integer-field schema, an
instance built by `from_dict`, a memoised strict call, a strict call from
a dirty cache, a `validate_partial` call, an attribute write, a list
element replacement reaching the owner through the backlink, and an
embedded document dirtied while linked. -/
theorem C3_validity_cache_machine_witness :
    ((⟨[("id", .vint 4)], [], false⟩ : DocState).isValidCache = false) ∧
    (validateDocument [("id", FieldDesc.intF ⟨none, true, none⟩)]
        ⟨[("id", .vint 4)], [], true⟩ true
      = .ok (true, ⟨[("id", .vint 4)], [], true⟩)) ∧
    ((⟨[("id", .vint 4)], [], true⟩ : DocState).isValidCache = true ∧
      (⟨[("id", .vint 4)], [], true⟩ : DocState).store
        = (⟨[("id", .vint 4)], [], false⟩ : DocState).store ∧
      (⟨[("id", .vint 4)], [], true⟩ : DocState).modified
        = (⟨[("id", .vint 4)], [], false⟩ : DocState).modified) ∧
    ((⟨[("id", .vint 4)], [], false⟩ : DocState)
        = ⟨[("id", .vint 4)], [], false⟩) ∧
    ((⟨[("id", .vint 5)], ["id"], false⟩ : DocState).isValidCache = false) ∧
    (docIsValid (notifySetItemB 1 0 (.prim (.vint 9)) 1
        ⟨[(0, .doc [] [] true []),
          (1, .nlist [.prim (.vint 1)] [(0, "tags")])], 2⟩).objs 0
      = some false) ∧
    (docIsValid (changedB 2 "x" 1
        [(0, .doc [] [] true []), (1, .doc [] [] true [(0, "emb")])]) 0
      = some false) := by
  refine ⟨?_, ?_, ?_, ?_, ?_, ?_, ?_⟩
  · exact C3_validity_cache_machine.1 [("id", FieldDesc.intF ⟨none, true, none⟩)]
      [("id", .vint 4)] ⟨[("id", .vint 4)], [], false⟩
      (by simp [fromDict, fromPipe, updateFrom, applyFilt, updateGo, ofSchemaFields,
        lookupStr, FieldDesc.hasPrepare, setStore, initDocState, Value.isNone])
  · exact C3_validity_cache_machine.2.1 [("id", FieldDesc.intF ⟨none, true, none⟩)]
      ⟨[("id", .vint 4)], [], true⟩ rfl
  · exact C3_validity_cache_machine.2.2.1 [("id", FieldDesc.intF ⟨none, true, none⟩)]
      ⟨[("id", .vint 4)], [], false⟩ true ⟨[("id", .vint 4)], [], true⟩ rfl
      (by simp [validateDocument, validateFieldsGo, resolveValue, lookupStr,
        FieldDesc.attrs, fieldTypeValidate, integerValidate, Value.isNone])
  · exact C3_validity_cache_machine.2.2.2.1 [("id", FieldDesc.intF ⟨none, true, none⟩)]
      ⟨[("id", .vint 4)], [], false⟩ true ⟨[("id", .vint 4)], [], false⟩
      (by simp [validateDocument, validateFieldsGo, resolveValue, lookupStr,
        FieldDesc.attrs, fieldTypeValidate, integerValidate, Value.isNone])
  · exact C3_validity_cache_machine.2.2.2.2.1 [("id", FieldDesc.intF ⟨none, true, none⟩)]
      "id" (.intF ⟨none, true, none⟩) (.vint 5) ⟨[("id", .vint 4)], [], false⟩
      ⟨[("id", .vint 5)], ["id"], false⟩ (by simp [lookupStr])
      (by simp [setAttrF, lookupStr, FieldDesc.hasPrepare, changedF, insertStr,
        setStore])
  · exact C3_validity_cache_machine.2.2.2.2.2.1 1 0 0 0 "tags" (.vint 9)
      [.prim (.vint 1)] [] [] true
      ⟨[(0, .doc [] [] true []), (1, .nlist [.prim (.vint 1)] [(0, "tags")])], 2⟩
      (by simp [lookupN]) (by simp [lookupN]) (by decide)
  · exact C3_validity_cache_machine.2.2.2.2.2.2 1 0 0 "emb" "x" [] [] true [] [] true
      [(0, .doc [] [] true []), (1, .doc [] [] true [(0, "emb")])]
      (by simp [lookupN]) (by simp [lookupN]) (by decide)

/-- C5: the same embedded instance (heap address 2) assigned to field `f1`
of owner `d1` (address 0) and to field `f2` of owner `d2` (address 1); a
single subsequent attribute mutation of the shared instance propagates
through the backlinks registered by `EmbeddedDocumentField._prepare` and
adds `f1` to the modified set of `d1` and `f2` to the modified set of
`d2` (clearing both validity caches). -/
theorem C5_shared_embedded_propagation
    (flds1 flds2 fldsE : List (String × BFieldKind)) (f1 f2 g : String)
    (v : Value)
    (hf1 : lookupStr flds1 f1 = some .embedded)
    (hf2 : lookupStr flds2 f2 = some .embedded)
    (hg : lookupStr fldsE g = some .plain) :
    let h0 : HeapSt := ⟨[(0, .doc [] [] false []), (1, .doc [] [] false []),
      (2, .doc [] [] false [])], 3⟩
    let hA := setAttrB flds1 f1 (.ref 2) 0 4 h0
    let hB := setAttrB flds2 f2 (.ref 2) 1 4 hA
    let hC := setAttrB fldsE g (.prim v) 2 4 hB
    docModified hC.objs 0 = some [f1] ∧ docModified hC.objs 1 = some [f2] ∧
    docModified hC.objs 2 = some [g] ∧
    docIsValid hC.objs 0 = some false ∧ docIsValid hC.objs 1 = some false := by
  simp [setAttrB, prepareB, changedB, changedParentsB, storeAttr, setBStore,
    setHeapN, lookupN, markDoc, parentsOf, insertPair, containsPair, pairEq,
    docModified, docIsValid, insertStr, hf1, hf2, hg]

/-- Witness for C5: owners with single embedded fields `child` and `kid`,
the shared instance mutated on its plain field `id`. -/
theorem C5_shared_embedded_propagation_witness :
    let h0 : HeapSt := ⟨[(0, .doc [] [] false []), (1, .doc [] [] false []),
      (2, .doc [] [] false [])], 3⟩
    let hA := setAttrB [("child", .embedded)] "child" (.ref 2) 0 4 h0
    let hB := setAttrB [("kid", .embedded)] "kid" (.ref 2) 1 4 hA
    let hC := setAttrB [("id", .plain)] "id" (.prim (.vint 7)) 2 4 hB
    docModified hC.objs 0 = some ["child"] ∧
    docModified hC.objs 1 = some ["kid"] ∧
    docModified hC.objs 2 = some ["id"] ∧
    docIsValid hC.objs 0 = some false ∧ docIsValid hC.objs 1 = some false :=
  C5_shared_embedded_propagation [("child", .embedded)] [("kid", .embedded)]
    [("id", .plain)] "child" "kid" "id" (.vint 7) (by simp [lookupStr])
    (by simp [lookupStr]) (by simp [lookupStr])

/-- C6: frame effect of imports and mutations on the modified set.
(1) The baseline import pipeline (`from_dict`; direct construction runs
the same closure) leaves the modified set empty.  (2) An attribute write
to a declared field of a backlink-free instance adds exactly that field
name to the modified set.  (3) Replacing an element of the `NotifyList`
held by a list field adds exactly the list field own name to the owner
modified set — no synthetic per-element path — and only replaces that
element of the still-linked list.  (4) `insert` on the list behaves the
same way. -/
theorem C6_modified_set_frame :
    (∀ γ data d, fromDict γ data = .ok d → d.modified = []) ∧
    (∀ fields name k (v : Value) self fuel (h : HeapSt) st m iv,
        lookupStr fields name = some k →
        lookupN h.objs self = some (.doc st m iv []) →
        docModified (setAttrB fields name (.prim v) self (fuel + 1) h).objs self
          = some (insertStr name m)) ∧
    (∀ la owner idx fuel (L : String) (v : Value) elems st m iv (h : HeapSt),
        lookupN h.objs la = some (.nlist elems [(owner, L)]) →
        lookupN h.objs owner = some (.doc st m iv []) →
        owner ≠ la →
        docModified (notifySetItemB la idx (.prim v) (fuel + 1) h).objs owner
          = some (insertStr L m) ∧
        lookupN (notifySetItemB la idx (.prim v) (fuel + 1) h).objs la
          = some (.nlist (elems.set idx (.prim v)) [(owner, L)])) ∧
    (∀ la owner idx fuel (L : String) (v : Value) elems st m iv (h : HeapSt),
        lookupN h.objs la = some (.nlist elems [(owner, L)]) →
        lookupN h.objs owner = some (.doc st m iv []) →
        owner ≠ la →
        docModified (notifyInsertB la idx (.prim v) (fuel + 1) h).objs owner
          = some (insertStr L m) ∧
        lookupN (notifyInsertB la idx (.prim v) (fuel + 1) h).objs la
          = some (.nlist (insertAt idx (.prim v) elems) [(owner, L)])) := by
  refine ⟨?_, ?_, ?_, ?_⟩
  · intro γ data d h
    simp only [fromDict, fromPipe, updateFrom, applyFilt] at h
    exact (updateGo_flags (ofSchemaFields γ) data initDocState d h).1
  · intro fields name k v self fuel h st m iv hk hself
    exact (setAttrB_marks fields name k v self fuel h st m iv hk hself).1
  · intro la owner idx fuel L v elems st m iv h hla howner hne
    have hm := notifySetItemB_marks la owner idx fuel L v elems st m iv h
      hla howner hne
    exact ⟨hm.1, hm.2.2⟩
  · intro la owner idx fuel L v elems st m iv h hla howner hne
    have hm := notifyInsertB_marks la owner idx fuel L v elems st m iv h
      hla howner hne
    exact ⟨hm.1, hm.2.2⟩

/-- Witness for C6: `from_dict` of a one-field schema, an attribute write,
and an element replacement plus an insert on a linked one-element list. -/
theorem C6_modified_set_frame_witness :
    ((⟨[("id", .vint 4)], [], false⟩ : DocState).modified = []) ∧
    (docModified (setAttrB [("id", BFieldKind.plain)] "id" (.prim (.vint 5)) 0 1
        ⟨[(0, .doc [] [] false [])], 1⟩).objs 0 = some (insertStr "id" [])) ∧
    (docModified (notifySetItemB 1 0 (.prim (.vint 9)) 1
        ⟨[(0, .doc [] [] false []),
          (1, .nlist [.prim (.vint 1)] [(0, "tags")])], 2⟩).objs 0
      = some (insertStr "tags" []) ∧
      lookupN (notifySetItemB 1 0 (.prim (.vint 9)) 1
        ⟨[(0, .doc [] [] false []),
          (1, .nlist [.prim (.vint 1)] [(0, "tags")])], 2⟩).objs 1
      = some (.nlist ([BVal.prim (.vint 1)].set 0 (.prim (.vint 9)))
          [(0, "tags")])) ∧
    (docModified (notifyInsertB 1 0 (.prim (.vint 9)) 1
        ⟨[(0, .doc [] [] false []),
          (1, .nlist [.prim (.vint 1)] [(0, "tags")])], 2⟩).objs 0
      = some (insertStr "tags" []) ∧
      lookupN (notifyInsertB 1 0 (.prim (.vint 9)) 1
        ⟨[(0, .doc [] [] false []),
          (1, .nlist [.prim (.vint 1)] [(0, "tags")])], 2⟩).objs 1
      = some (.nlist (insertAt 0 (.prim (.vint 9)) [BVal.prim (.vint 1)])
          [(0, "tags")])) := by
  refine ⟨?_, ?_, ?_, ?_⟩
  · exact C6_modified_set_frame.1 [("id", FieldDesc.intF ⟨none, true, none⟩)]
      [("id", .vint 4)] ⟨[("id", .vint 4)], [], false⟩
      (by simp [fromDict, fromPipe, updateFrom, applyFilt, updateGo, ofSchemaFields,
        lookupStr, FieldDesc.hasPrepare, setStore, initDocState, Value.isNone])
  · exact C6_modified_set_frame.2.1 [("id", BFieldKind.plain)] "id"
      BFieldKind.plain (.vint 5) 0 0 ⟨[(0, .doc [] [] false [])], 1⟩ [] [] false
      (by simp [lookupStr]) (by simp [lookupN])
  · exact C6_modified_set_frame.2.2.1 1 0 0 0 "tags" (.vint 9)
      [.prim (.vint 1)] [] [] false
      ⟨[(0, .doc [] [] false []), (1, .nlist [.prim (.vint 1)] [(0, "tags")])], 2⟩
      (by simp [lookupN]) (by simp [lookupN]) (by decide)
  · exact C6_modified_set_frame.2.2.2 1 0 0 0 "tags" (.vint 9)
      [.prim (.vint 1)] [] [] false
      ⟨[(0, .doc [] [] false []), (1, .nlist [.prim (.vint 1)] [(0, "tags")])], 2⟩
      (by simp [lookupN]) (by simp [lookupN]) (by decide)
